import Mathlib

/-!
Shallow embedding of the mini RDBMS core (src/db/column.py, src/db/index.py,
src/db/table.py, src/db/engine.py).

Python dictionaries are embedded as association lists with dict semantics
(assignment overwrites in place, fresh keys append, deletion removes the
unique occurrence); Python exceptions become `Except DBErr`, and methods that
mutate state in place return the state at the point of the raise, so that
partial mutation on failure is observable.
-/

set_option autoImplicit false

namespace MiniRDBMS

/-- Runtime values: the two scalar kinds plus the null marker
(Python `int`, `str`, `None`). -/
inductive Value where
  | int (n : Int)
  | text (s : String)
  | null
deriving DecidableEq, Repr

/-- Error taxonomy; the Python code raises `ValueError` / `TypeError` /
`KeyError` with messages, distinguished here by construction site. -/
inductive DBErr where
  | schemaError
  | valueCount
  | typeError
  | constraintViolation
  | keyError
deriving DecidableEq, Repr

/-! ## Association lists with Python-dict semantics -/

/-- First-match lookup (`d.get(k)` / `d[k]`); dicts keep keys unique so
first-match is the unique match. -/
def lookupA {α β : Type} [DecidableEq α] : List (α × β) → α → Option β
  | [], _ => none
  | (a, b) :: t, k => if a = k then some b else lookupA t k

/-- Key membership (`k in d`). -/
def containsA {α β : Type} [DecidableEq α] (l : List (α × β)) (k : α) : Bool :=
  (lookupA l k).isSome

/-- Dict assignment `d[k] = v`: overwrite in place if the key exists,
append otherwise. -/
def dinsert {α β : Type} [DecidableEq α] : List (α × β) → α → β → List (α × β)
  | [], k, v => [(k, v)]
  | (a, b) :: t, k, v => if a = k then (k, v) :: t else (a, b) :: dinsert t k v

/-- Dict deletion `del d[k]` (removes the first occurrence; a no-op when the
key is absent, matching the guarded deletes in the source). -/
def eraseA {α β : Type} [DecidableEq α] : List (α × β) → α → List (α × β)
  | [], _ => []
  | (a, b) :: t, k => if a = k then t else (a, b) :: eraseA t k

/-! ## Column (src/db/column.py) -/

/-- Supported data types. -/
inductive DataType where
  | INT
  | TEXT
deriving DecidableEq, Repr

/-- A column definition. -/
structure Column where
  name : String
  data_type : DataType
  is_primary_key : Bool
  is_unique : Bool
deriving DecidableEq, Repr

/-- `Column.__init__`: PRIMARY KEY forces UNIQUE. -/
def Column.make (name : String) (data_type : DataType)
    (is_primary_key : Bool) (is_unique : Bool) : Column :=
  { name, data_type, is_primary_key, is_unique := is_unique || is_primary_key }

/-- Numeric value of a nonempty all-digit character list. -/
def digitsVal (cs : List Char) : Option Nat :=
  if cs.isEmpty then none
  else cs.foldl (fun acc c =>
    match acc with
    | none => none
    | some n => if c.isDigit then some (n * 10 + (c.toNat - 48)) else none) (some 0)

/-- Python `int(s)` on a string: optional surrounding whitespace, an optional
sign, then decimal digits (simplified: no underscore separators or bases). -/
def strToInt? (s : String) : Option Int :=
  let cs := s.toList.dropWhile (·.isWhitespace)
  let cs := (cs.reverse.dropWhile (·.isWhitespace)).reverse
  match cs with
  | '-' :: rest => (digitsVal rest).map (fun n => -(n : Int))
  | '+' :: rest => (digitsVal rest).map (fun n => (n : Int))
  | rest => (digitsVal rest).map (fun n => (n : Int))

/-- `Column.validate_value`: `None` passes through; INT attempts numeric
conversion (`int(value)`); TEXT converts to a string (`str(value)`);
conversion failure raises TypeError. -/
def Column.validate_value (c : Column) (value : Value) : Except DBErr Value :=
  match value with
  | .null => .ok .null
  | v =>
    match c.data_type with
    | .INT =>
      match v with
      | .int n => .ok (.int n)
      | .text s =>
        match strToInt? s with
        | some n => .ok (.int n)
        | none => .error .typeError
      | .null => .ok .null
    | .TEXT =>
      match v with
      | .int n => .ok (.text (toString n))
      | .text s => .ok (.text s)
      | .null => .ok .null

/-! ## Index (src/db/index.py) -/

/-- Hash index for a unique column: forward map value→slot and reverse map
slot→value, both Python dicts. -/
structure Index where
  column_name : String
  _index : List (Value × Nat)
  _reverse_index : List (Nat × Value)
deriving DecidableEq, Repr

/-- `Index.add`: raise on a duplicate value, otherwise record both
directions. -/
def Index.add (ix : Index) (value : Value) (row_index : Nat) : Except DBErr Index :=
  if containsA ix._index value then .error .constraintViolation
  else .ok { ix with
    _index := dinsert ix._index value row_index,
    _reverse_index := dinsert ix._reverse_index row_index value }

/-- `Index.get`: forward lookup. -/
def Index.get (ix : Index) (value : Value) : Option Nat :=
  lookupA ix._index value

/-- `Index.remove`: drop the forward entry only if it currently maps to
`row_index`; always drop the reverse entry for `row_index` if present. -/
def Index.remove (ix : Index) (value : Value) (row_index : Nat) : Index :=
  { ix with
    _index :=
      if lookupA ix._index value = some row_index then eraseA ix._index value
      else ix._index,
    _reverse_index := eraseA ix._reverse_index row_index }

/-- One step of the rebuild loop in `Index.adjust_for_deletion`: entries with
slot above the deleted one shift down, entries below are kept, an entry at the
deleted slot is dropped. -/
def adjStep (deleted_index : Nat) (acc : List (Value × Nat) × List (Nat × Value))
    (e : Value × Nat) : List (Value × Nat) × List (Nat × Value) :=
  if deleted_index < e.2 then
    (dinsert acc.1 e.1 (e.2 - 1), dinsert acc.2 (e.2 - 1) e.1)
  else if e.2 < deleted_index then
    (dinsert acc.1 e.1 e.2, dinsert acc.2 e.2 e.1)
  else acc

/-- `Index.adjust_for_deletion`: rebuild both maps from the forward entries.
-/
def Index.adjust_for_deletion (ix : Index) (deleted_index : Nat) : Index :=
  let res := ix._index.foldl (adjStep deleted_index) ([], [])
  { ix with _index := res.1, _reverse_index := res.2 }

/-- `Index.update`: `remove` then `add`; on add failure the raise propagates
with the state left as it was after the remove. -/
def Index.update (ix : Index) (old_value new_value : Value) (row_index : Nat) :
    Except DBErr Unit × Index :=
  let ix1 := ix.remove old_value row_index
  match ix1.add new_value row_index with
  | .ok ix2 => (.ok (), ix2)
  | .error e => (.error e, ix1)

/-- `Index.__contains__`. -/
def Index.contains (ix : Index) (value : Value) : Bool :=
  containsA ix._index value

/-! ## Table (src/db/table.py) -/

/-- A row: a Python dict from column name to stored value. -/
abbrev Row := List (String × Value)

/-- A table: named column list, positional row store, and one index per
primary-key/unique column (a dict keyed by column name). -/
structure Table where
  name : String
  columns : List Column
  rows : List Row
  indexes : List (String × Index)
deriving DecidableEq, Repr

/-- `self.column_dict`, built once from the (immutable) column list. -/
def Table.column_dict (t : Table) : List (String × Column) :=
  t.columns.foldl (fun d c => dinsert d c.name c) []

/-- `Table.__init__`: reject zero columns and multiple primary keys; create
an empty index for every primary-key/unique column. -/
def Table.create (name : String) (columns : List Column) : Except DBErr Table :=
  if columns.isEmpty then .error .schemaError
  else if 1 < (columns.filter (·.is_primary_key)).length then .error .schemaError
  else
    .ok
      { name := name
        columns := columns
        rows := []
        indexes := (columns.foldl (fun d c =>
          if c.is_primary_key || c.is_unique then
            dinsert d c.name (Index.mk c.name [] [])
          else d) []) }

/-- The per-column loop of `Table.insert`: validate each value in declared
order, recording it in the row dict, and check primary-key/unique candidates
against the (still unmutated) index. The `none` index branch is unreachable
for tables built by `Table.create` (Python would raise KeyError). -/
def Table.buildRow (t : Table) : List (Column × Value) → Row → Except DBErr Row
  | [], row => .ok row
  | (col, value) :: rest, row =>
    match col.validate_value value with
    | .error e => .error e
    | .ok vv =>
      let row' := dinsert row col.name vv
      if col.is_primary_key || col.is_unique then
        match lookupA t.indexes col.name with
        | some ixObj =>
          if ixObj.contains vv then .error .constraintViolation
          else t.buildRow rest row'
        | none => t.buildRow rest row'
      else t.buildRow rest row'

/-- The post-append loop of `Table.insert`: add the new row's value to every
index in dict order; a raise from `add` leaves the earlier indexes already
mutated. -/
def addLoop (row : Row) (slot : Nat) :
    List (String × Index) → Except DBErr Unit × List (String × Index)
  | [] => (.ok (), [])
  | (c, ixObj) :: rest =>
    match ixObj.add ((lookupA row c).getD .null) slot with
    | .error e => (.error e, (c, ixObj) :: rest)
    | .ok ix' =>
      match addLoop row slot rest with
      | (r, rest') => (r, (c, ix') :: rest')

/-- `Table.insert`: length check, per-column validation and uniqueness
checks, then append the row and add it to every index. -/
def Table.insert (t : Table) (values : List Value) : Except DBErr Unit × Table :=
  if values.length ≠ t.columns.length then (.error .valueCount, t)
  else
    match t.buildRow (t.columns.zip values) [] with
    | .error e => (.error e, t)
    | .ok row =>
      let t1 : Table := { t with rows := t.rows ++ [row] }
      match addLoop row t.rows.length t1.indexes with
      | (r, idxs') => (r, { t1 with indexes := idxs' })

/-- One AND-ed equality test of the scan path (`row.get(col_name) != value`;
`dict.get` returns `None` for a missing key, which coincides with a stored
null). -/
def matchConds (row : Row) (cs : List (String × Value)) : Bool :=
  cs.all (fun cv => decide (((lookupA row cv.1).getD .null) = cv.2))

/-- `Table.select`: no (or empty) conditions return the whole row store;
exactly one condition on an indexed column goes through the index (zero or
one row; an out-of-range slot, where Python would raise IndexError, yields
`[]` and is unreachable under the index invariant); otherwise a full scan. -/
def Table.select (t : Table) (conditions : Option (List (String × Value))) : List Row :=
  match conditions with
  | none => t.rows
  | some [] => t.rows
  | some (cv :: rest) =>
    if rest.isEmpty then
      match lookupA t.indexes cv.1 with
      | some ixObj =>
        match ixObj.get cv.2 with
        | some idx =>
          match t.rows[idx]? with
          | some r => [r]
          | none => []
        | none => []
      | none => t.rows.filter (fun row => matchConds row (cv :: rest))
    else t.rows.filter (fun row => matchConds row (cv :: rest))

/-- The row-relocation predicate of update/delete:
`all(r[col] == row[col] for col in r.keys())`. -/
def contentMatch (r target : Row) : Bool :=
  r.all (fun kv => decide (((lookupA target kv.1).getD .null) = kv.2))

/-- Slot resolution of update/delete: for each target row, the first slot in
the row store whose full content matches. -/
def Table.findSlots (t : Table) (targets : List Row) : List Nat :=
  targets.filterMap (fun row => t.rows.findIdx? (fun r => contentMatch r row))

/-- The inner validation loop of `Table.update` for one target slot: every
assignment on an indexed column is validated and checked against an existing
index entry belonging to a different slot. -/
def validateOne (t : Table) (idx : Nat) : List (String × Value) → Except DBErr Unit
  | [] => .ok ()
  | (c, nv) :: rest =>
    match lookupA t.indexes c with
    | none => validateOne t idx rest
    | some ixObj =>
      match lookupA t.column_dict c with
      | none => .error .keyError
      | some col =>
        match col.validate_value nv with
        | .error e => .error e
        | .ok vv =>
          match ixObj.get vv with
          | some existing =>
            if existing ≠ idx then .error .constraintViolation
            else validateOne t idx rest
          | none => validateOne t idx rest

/-- The validation pass of `Table.update` (no mutation). -/
def validatePass (t : Table) (ups : List (String × Value)) :
    List Nat → Except DBErr Unit
  | [] => .ok ()
  | idx :: rest =>
    match validateOne t idx ups with
    | .error e => .error e
    | .ok _ => validatePass t ups rest

/-- First half of the apply pass for one target slot: remove the old values
of all assigned indexed columns from their indexes. -/
def removeOlds (t : Table) (idx : Nat) (ups : List (String × Value)) : Table :=
  ups.foldl (fun acc cv =>
    match lookupA acc.indexes cv.1 with
    | none => acc
    | some ixObj =>
      let oldv := (lookupA (acc.rows.getD idx []) cv.1).getD .null
      { acc with indexes := dinsert acc.indexes cv.1 (ixObj.remove oldv idx) }) t

/-- Second half of the apply pass for one target slot: write each validated
new value into the row (in place) and add it to the column's index; a raise
from validation or `add` propagates with the mutations made so far kept. -/
def applyOne (t : Table) (idx : Nat) :
    List (String × Value) → Except DBErr Unit × Table
  | [] => (.ok (), t)
  | (c, nv) :: rest =>
    match lookupA t.column_dict c with
    | none => (.error .keyError, t)
    | some col =>
      match col.validate_value nv with
      | .error e => (.error e, t)
      | .ok vv =>
        let t1 : Table := { t with rows := t.rows.set idx (dinsert (t.rows.getD idx []) c vv) }
        match lookupA t1.indexes c with
        | none => applyOne t1 idx rest
        | some ixObj =>
          match ixObj.add vv idx with
          | .error e => (.error e, t1)
          | .ok ix' => applyOne { t1 with indexes := dinsert t1.indexes c ix' } idx rest

/-- The apply pass of `Table.update` over all target slots, counting the rows
updated. -/
def applyAll (t : Table) (ups : List (String × Value)) :
    List Nat → Except DBErr Nat × Table
  | [] => (.ok 0, t)
  | idx :: rest =>
    let t1 := removeOlds t idx ups
    match applyOne t1 idx ups with
    | (.error e, t2) => (.error e, t2)
    | (.ok _, t2) =>
      match applyAll t2 ups rest with
      | (.error e, t3) => (.error e, t3)
      | (.ok n, t3) => (.ok (n + 1), t3)

/-- `Table.update`: resolve targets via select, recover their slots by
content equality, validate, then apply. -/
def Table.update (t : Table) (updates : List (String × Value))
    (conditions : Option (List (String × Value))) : Except DBErr Nat × Table :=
  let targets := t.select conditions
  let indices := t.findSlots targets
  match validatePass t updates indices with
  | .error e => (.error e, t)
  | .ok _ => applyAll t updates indices

/-- One deletion step of `Table.delete` at a resolved slot: remove the row's
values from every index, adjust every index, then drop the row. -/
def deleteSlot (t : Table) (idx : Nat) : Table :=
  let row := t.rows.getD idx []
  let t1 : Table := { t with indexes :=
    (t.indexes.map (fun ci => (ci.1, ci.2.remove ((lookupA row ci.1).getD .null) idx))) }
  let t2 : Table := { t1 with indexes :=
    (t1.indexes.map (fun ci => (ci.1, ci.2.adjust_for_deletion idx))) }
  { t2 with rows := t2.rows.eraseIdx idx }

/-- Descending insertion used to model `indices.sort(reverse=True)`. -/
def insertDesc (x : Nat) : List Nat → List Nat
  | [] => [x]
  | y :: t => if x ≥ y then x :: y :: t else y :: insertDesc x t

/-- `indices.sort(reverse=True)`. -/
def sortDesc (l : List Nat) : List Nat :=
  l.foldr insertDesc []

/-- `Table.delete`: resolve targets like update, sort their slots in
descending order, and delete each. -/
def Table.delete (t : Table) (conditions : Option (List (String × Value))) :
    Nat × Table :=
  let targets := t.select conditions
  let indices := sortDesc (t.findSlots targets)
  (indices.length, indices.foldl deleteSlot t)

/-! ## Engine (src/db/engine.py) -/

/-- The catalog: a dict from table name to table. -/
structure DatabaseEngine where
  tables : List (String × Table)
deriving DecidableEq, Repr

/-- `DatabaseEngine.create_table`. -/
def DatabaseEngine.create_table (e : DatabaseEngine) (table_name : String)
    (columns : List Column) : Except DBErr Unit × DatabaseEngine :=
  if containsA e.tables table_name then (.error .schemaError, e)
  else
    match Table.create table_name columns with
    | .error err => (.error err, e)
    | .ok t => (.ok (), ⟨dinsert e.tables table_name t⟩)

/-- `DatabaseEngine.insert_into`. -/
def DatabaseEngine.insert_into (e : DatabaseEngine) (table_name : String)
    (values : List Value) : Except DBErr Unit × DatabaseEngine :=
  match lookupA e.tables table_name with
  | none => (.error .schemaError, e)
  | some t =>
    match t.insert values with
    | (r, t') => (r, ⟨dinsert e.tables table_name t'⟩)

/-- Column projection of `select_from`
(`\x7bcol: row[col] for col in columns if col in row\x7d`). -/
def projectRow (cols : List String) (row : Row) : Row :=
  cols.foldl (fun acc c =>
    match lookupA row c with
    | some v => dinsert acc c v
    | none => acc) []

/-- `DatabaseEngine.select_from` (a falsy column list skips projection). -/
def DatabaseEngine.select_from (e : DatabaseEngine) (table_name : String)
    (columns : Option (List String)) (wh : Option (List (String × Value))) :
    Except DBErr (List Row) × DatabaseEngine :=
  match lookupA e.tables table_name with
  | none => (.error .schemaError, e)
  | some t =>
    let rows := t.select wh
    match columns with
    | none => (.ok rows, e)
    | some [] => (.ok rows, e)
    | some cs => (.ok (rows.map (projectRow cs)), e)

/-- `DatabaseEngine.update_table`. -/
def DatabaseEngine.update_table (e : DatabaseEngine) (table_name : String)
    (updates : List (String × Value)) (wh : Option (List (String × Value))) :
    Except DBErr Nat × DatabaseEngine :=
  match lookupA e.tables table_name with
  | none => (.error .schemaError, e)
  | some t =>
    match t.update updates wh with
    | (r, t') => (r, ⟨dinsert e.tables table_name t'⟩)

/-- `DatabaseEngine.delete_from`. -/
def DatabaseEngine.delete_from (e : DatabaseEngine) (table_name : String)
    (wh : Option (List (String × Value))) : Except DBErr Nat × DatabaseEngine :=
  match lookupA e.tables table_name with
  | none => (.error .schemaError, e)
  | some t =>
    match t.delete wh with
    | (n, t') => (.ok n, ⟨dinsert e.tables table_name t'⟩)

/-- `DatabaseEngine.drop_table`. -/
def DatabaseEngine.drop_table (e : DatabaseEngine) (table_name : String) :
    Except DBErr Unit × DatabaseEngine :=
  if containsA e.tables table_name then (.ok (), ⟨eraseA e.tables table_name⟩)
  else (.error .schemaError, e)

/-! ## Specification layer: invariants, reachability, and comparison models -/

/-- The value a row holds for a column (`row[c]`, with a missing key reading
as null, which matches Python conflating `None` and a missing `dict.get`). -/
def rowVal (r : Row) (c : String) : Value :=
  (lookupA r c).getD .null

/-- The entry transformation performed by one `adjust_for_deletion` rebuild
step: slots above the deleted one shift down by one, slots below are kept,
an entry at the deleted slot is dropped. -/
def shiftEntry (p : Nat) (e : Value × Nat) : Option (Value × Nat) :=
  if p < e.2 then some (e.1, e.2 - 1)
  else if e.2 < p then some e
  else none

/-- The spec's index invariant for one column: the forward map has exactly one
entry per row, mapping that row's current value for the column to the row's
current slot, with no duplicate keys. -/
def IndexGood (rows : List Row) (c : String) (ix : Index) : Prop :=
  ix._index.length = rows.length ∧
  (∀ s, s < rows.length → lookupA ix._index (rowVal (rows.getD s []) c) = some s) ∧
  (ix._index.map Prod.fst).Nodup ∧
  (∀ e ∈ ix._index, e.2 < rows.length ∧ rowVal (rows.getD e.2 []) c = e.1)

/-- Structural well-formedness guaranteed by `Table.create` for a column list
with distinct names: distinct column and index names, indexes exactly for the
primary-key/unique columns, and every stored row shaped by the column list. -/
def TableWF (t : Table) : Prop :=
  (t.columns.map Column.name).Nodup ∧
  (t.indexes.map Prod.fst).Nodup ∧
  (∀ ci ∈ t.indexes, ∃ col ∈ t.columns,
    col.name = ci.1 ∧ (col.is_primary_key || col.is_unique) = true) ∧
  (∀ col ∈ t.columns, (col.is_primary_key || col.is_unique) = true →
    containsA t.indexes col.name = true) ∧
  (∀ r ∈ t.rows, r.map Prod.fst = t.columns.map Column.name)

/-- Well-formedness together with the index invariant for every index. -/
def TableGood (t : Table) : Prop :=
  TableWF t ∧ ∀ ci ∈ t.indexes, IndexGood t.rows ci.1 ci.2

/-- Intermediate shape of an index inside update's apply pass: exactly the
entry for the slot being rewritten has been removed; every other row's entry
is intact. -/
def IndexRemoved (rows : List Row) (idx : Nat) (c : String) (ix : Index) : Prop :=
  ix._index.length + 1 = rows.length ∧
  (∀ s, s < rows.length → s ≠ idx →
    lookupA ix._index (rowVal (rows.getD s []) c) = some s) ∧
  (ix._index.map Prod.fst).Nodup ∧
  (∀ e ∈ ix._index, e.2 < rows.length ∧ e.2 ≠ idx ∧
    rowVal (rows.getD e.2 []) c = e.1)

/-- Invariant during update's apply pass for one target slot: the indexes of
still-pending assigned columns hold every entry except the target slot's, all
other indexes satisfy the full invariant. -/
def MidGood (t : Table) (idx : Nat) (pend : List String) : Prop :=
  ∀ c ixObj, lookupA t.indexes c = some ixObj →
    if c ∈ pend then IndexRemoved t.rows idx c ixObj
    else IndexGood t.rows c ixObj

/-- States reachable from table creation by inserts, deletes, and updates
whose raise, if any, does not happen during the apply pass (an update is
admitted when it either succeeds or leaves the table unchanged). Column names
are distinct at creation, and assignment maps, being Python dicts, have
distinct keys. -/
inductive ReachGood : Table → Prop where
  | init : ∀ (name : String) (cols : List Column) (t : Table),
      (cols.map Column.name).Nodup → Table.create name cols = .ok t → ReachGood t
  | insert : ∀ (t : Table) (values : List Value),
      ReachGood t → ReachGood (t.insert values).2
  | dele : ∀ (t : Table) (conds : Option (List (String × Value))),
      ReachGood t → ReachGood (t.delete conds).2
  | update : ∀ (t : Table) (ups : List (String × Value))
      (conds : Option (List (String × Value))),
      ReachGood t → (ups.map Prod.fst).Nodup →
      ((∃ n, (t.update ups conds).1 = .ok n) ∨ (t.update ups conds).2 = t) →
      ReachGood (t.update ups conds).2

/-- Modelled from the spec: the scan side of the index/scan equivalence
property, a full scan of the row store keeping exactly the rows whose value
for the column equals the literal. -/
def scanSelect (t : Table) (c : String) (v : Value) : List Row :=
  t.rows.filter (fun r => decide (rowVal r c = v))

/-- One assignment on an indexed column names a real column and validates
successfully (assignments on non-indexed columns pass trivially). -/
def validOKb (t : Table) (cv : String × Value) : Bool :=
  !(lookupA t.indexes cv.1).isSome ||
    (match lookupA t.column_dict cv.1 with
     | none => false
     | some col =>
       match col.validate_value cv.2 with
       | .ok _ => true
       | .error _ => false)

/-- Hypothesis of the corrected update-atomicity statement: every assignment
on an indexed column names a real column and validates successfully. -/
def ValidOK (t : Table) (ups : List (String × Value)) : Prop :=
  ∀ cv ∈ ups, validOKb t cv = true

/-- Hypothesis of the corrected update-atomicity statement: some target slot
and some assignment on an indexed column collide with an existing index entry
belonging to a different slot. -/
def Collision (t : Table) (ups : List (String × Value)) (indices : List Nat) : Prop :=
  ∃ idx ∈ indices, ∃ cv ∈ ups, ∃ (ixObj : Index) (col : Column) (vv : Value) (j : Nat),
    lookupA t.indexes cv.1 = some ixObj ∧
    lookupA t.column_dict cv.1 = some col ∧
    col.validate_value cv.2 = .ok vv ∧
    ixObj.get vv = some j ∧ j ≠ idx

/-- Per-column hypothesis for the exact insert-conflict statement: every
column before position `i` validates its value and, when indexed, has no
uniqueness conflict. -/
def CleanBefore (t : Table) (pairs : List (Column × Value)) (i : Nat) : Prop :=
  ∀ j, j < i → ∃ vv,
    (pairs.getD j (⟨"", .TEXT, false, false⟩, .null)).1.validate_value
      (pairs.getD j (⟨"", .TEXT, false, false⟩, .null)).2 = .ok vv ∧
    (((pairs.getD j (⟨"", .TEXT, false, false⟩, .null)).1.is_primary_key ||
      (pairs.getD j (⟨"", .TEXT, false, false⟩, .null)).1.is_unique) = true →
      ∀ ixObj : Index,
        lookupA t.indexes (pairs.getD j (⟨"", .TEXT, false, false⟩, .null)).1.name
          = some ixObj → ixObj.contains vv = false)

/-- The column at position `i` is indexed, its value validates, and the
validated value is already present in its index. -/
def ConflictAt (t : Table) (pairs : List (Column × Value)) (i : Nat) : Prop :=
  i < pairs.length ∧ ∃ (vv : Value) (ixObj : Index),
    (pairs.getD i (⟨"", .TEXT, false, false⟩, .null)).1.validate_value
      (pairs.getD i (⟨"", .TEXT, false, false⟩, .null)).2 = .ok vv ∧
    (((pairs.getD i (⟨"", .TEXT, false, false⟩, .null)).1.is_primary_key ||
      (pairs.getD i (⟨"", .TEXT, false, false⟩, .null)).1.is_unique) = true) ∧
    lookupA t.indexes (pairs.getD i (⟨"", .TEXT, false, false⟩, .null)).1.name
      = some ixObj ∧
    ixObj.contains vv = true

instance {α : Type} [DecidableEq α] : DecidableEq (Except DBErr α) := fun a b =>
  match a, b with
  | .error e, .error f =>
    if h : e = f then .isTrue (by rw [h]) else .isFalse (by simp [h])
  | .ok x, .ok y =>
    if h : x = y then .isTrue (by rw [h]) else .isFalse (by simp [h])
  | .error _, .ok _ => .isFalse (by simp)
  | .ok _, .error _ => .isFalse (by simp)

instance (rows : List Row) (c : String) (ix : Index) :
    Decidable (IndexGood rows c ix) := by
  unfold IndexGood; exact inferInstance

instance (t : Table) : Decidable (TableWF t) := by
  unfold TableWF; exact inferInstance

instance (t : Table) : Decidable (TableGood t) := by
  unfold TableGood; exact inferInstance

instance (t : Table) (ups : List (String × Value)) : Decidable (ValidOK t ups) := by
  unfold ValidOK; exact inferInstance

/-! ### Object-level model for aliasing (`select` with no conditions)

`Table.select` without conditions returns `self.rows.copy()`: Python copies
the outer list but the row dictionaries inside are the very same objects as
the stored ones. To make that observable, rows live in a store and the table
and the returned result hold references into it. -/

/-- A table at the object level: a store of row objects and the row list as
references into the store. -/
structure TableObj where
  store : List Row
  rowRefs : List Nat
deriving DecidableEq, Repr

/-- The no-conditions branch of `Table.select` at the object level:
`self.rows.copy()` duplicates only the reference list. -/
def TableObj.selectAllRefs (t : TableObj) : List Nat :=
  t.rowRefs

/-- The rows the table logically contains. -/
def TableObj.logicalRows (t : TableObj) : List Row :=
  t.rowRefs.filterMap (fun r => t.store[r]?)

/-- A caller mutating a row object it holds a reference to
(`returned_row[c] = v`). -/
def TableObj.mutateRef (t : TableObj) (ref : Nat) (c : String) (v : Value) : TableObj :=
  { t with store := t.store.set ref (dinsert (t.store.getD ref []) c v) }

/-! ### Concrete tables used by counterexamples and witnesses -/

/-- The spec's running example schema:
users(id INT PRIMARY KEY, email TEXT UNIQUE, name TEXT). -/
def usersT0 : Table :=
  (Table.create "users"
    [Column.make "id" .INT true false,
     Column.make "email" .TEXT false true,
     Column.make "name" .TEXT false false]).toOption.getD ⟨"users", [], [], []⟩

/-- The users table after inserting (1, a, A). -/
def usersT1 : Table :=
  (usersT0.insert [.int 1, .text "a", .text "A"]).2

/-- The users table after inserting (1, a, A) and (2, b, B). -/
def usersT2 : Table :=
  (usersT1.insert [.int 2, .text "b", .text "B"]).2

/-- The users table after inserting a row with a null primary key. -/
def usersTN : Table :=
  (usersT0.insert [.null, .text "a", .text "A"]).2

/-- A small concrete index with two entries, used by witnesses. -/
def ixW : Index :=
  ⟨"id", [(.int 1, 0), (.int 2, 1)], [(0, .int 1), (1, .int 2)]⟩

/-- A small concrete engine with two tables, used by witnesses. -/
def engW : DatabaseEngine :=
  ⟨[("users", usersT2), ("empty", usersT0)]⟩

/-! ## Lemmas about the dict embedding -/

section AListLemmas

variable {α β : Type} [DecidableEq α]

theorem mem_of_lookupA_eq_some {l : List (α × β)} {k : α} {v : β}
    (h : lookupA l k = some v) : (k, v) ∈ l := by
  induction l with
  | nil => simp [lookupA] at h
  | cons e t ih =>
    obtain ⟨a, b⟩ := e
    by_cases hak : a = k
    · subst hak
      simp [lookupA] at h
      subst h
      exact List.mem_cons_self _ _
    · simp [lookupA, hak] at h
      exact List.mem_cons_of_mem _ (ih h)

theorem lookupA_isSome_iff {l : List (α × β)} {k : α} :
    (lookupA l k).isSome = true ↔ k ∈ l.map Prod.fst := by
  induction l with
  | nil => simp [lookupA]
  | cons e t ih =>
    obtain ⟨a, b⟩ := e
    by_cases hak : a = k
    · subst hak; simp [lookupA]
    · simp [lookupA, hak, ih, Ne.symm hak]

theorem lookupA_eq_none_iff {l : List (α × β)} {k : α} :
    lookupA l k = none ↔ k ∉ l.map Prod.fst := by
  rw [← lookupA_isSome_iff]
  cases lookupA l k <;> simp

theorem lookupA_eq_some_of_mem_nodup {l : List (α × β)} {k : α} {v : β}
    (hn : (l.map Prod.fst).Nodup) (hm : (k, v) ∈ l) : lookupA l k = some v := by
  induction l with
  | nil => simp at hm
  | cons e t ih =>
    obtain ⟨a, b⟩ := e
    simp only [List.map_cons, List.nodup_cons] at hn
    rcases List.mem_cons.mp hm with h | h
    · obtain ⟨h1, h2⟩ := Prod.mk.injEq .. ▸ h
      cases h
      simp [lookupA]
    · have hak : a ≠ k := by
        intro hak
        subst hak
        exact hn.1 (List.mem_map.mpr ⟨(a, v), h, rfl⟩)
      simp [lookupA, hak]
      exact ih hn.2 h

theorem lookupA_append_of_some {l m : List (α × β)} {k : α} {v : β}
    (h : lookupA l k = some v) : lookupA (l ++ m) k = some v := by
  induction l with
  | nil => simp [lookupA] at h
  | cons e t ih =>
    obtain ⟨a, b⟩ := e
    by_cases hak : a = k
    · subst hak; simp [lookupA] at h ⊢; exact h
    · simp [lookupA, hak] at h ⊢; exact ih h

theorem lookupA_append_of_none {l m : List (α × β)} {k : α}
    (h : lookupA l k = none) : lookupA (l ++ m) k = lookupA m k := by
  induction l with
  | nil => simp [lookupA]
  | cons e t ih =>
    obtain ⟨a, b⟩ := e
    by_cases hak : a = k
    · subst hak; simp [lookupA] at h
    · simp [lookupA, hak] at h ⊢; exact ih h

theorem lookupA_dinsert_self (l : List (α × β)) (k : α) (v : β) :
    lookupA (dinsert l k v) k = some v := by
  induction l with
  | nil => simp [dinsert, lookupA]
  | cons e t ih =>
    obtain ⟨a, b⟩ := e
    by_cases hak : a = k
    · subst hak; simp [dinsert, lookupA]
    · simp [dinsert, hak, lookupA, ih]

theorem lookupA_dinsert_ne (l : List (α × β)) (k k' : α) (v : β) (h : k' ≠ k) :
    lookupA (dinsert l k v) k' = lookupA l k' := by
  induction l with
  | nil => simp [dinsert, lookupA, Ne.symm h]
  | cons e t ih =>
    obtain ⟨a, b⟩ := e
    by_cases hak : a = k
    · subst hak; simp [dinsert, lookupA, Ne.symm h]
    · simp [dinsert, hak, lookupA, ih]

theorem dinsert_eq_append {l : List (α × β)} {k : α} (v : β)
    (h : lookupA l k = none) : dinsert l k v = l ++ [(k, v)] := by
  induction l with
  | nil => simp [dinsert]
  | cons e t ih =>
    obtain ⟨a, b⟩ := e
    by_cases hak : a = k
    · subst hak; simp [lookupA] at h
    · simp [lookupA, hak] at h
      simp [dinsert, hak, ih h]

theorem map_fst_dinsert_of_isSome {l : List (α × β)} {k : α} (v : β)
    (h : (lookupA l k).isSome = true) :
    (dinsert l k v).map Prod.fst = l.map Prod.fst := by
  induction l with
  | nil => simp [lookupA] at h
  | cons e t ih =>
    obtain ⟨a, b⟩ := e
    by_cases hak : a = k
    · subst hak; simp [dinsert]
    · simp [lookupA, hak] at h
      simp [dinsert, hak, ih h]

theorem nodup_keys_dinsert {l : List (α × β)} {k : α} (v : β)
    (h : (l.map Prod.fst).Nodup) : ((dinsert l k v).map Prod.fst).Nodup := by
  cases hl : lookupA l k with
  | some w => rw [map_fst_dinsert_of_isSome v (by rw [hl]; rfl)]; exact h
  | none =>
    rw [dinsert_eq_append v hl]
    simp only [List.map_append, List.map_cons, List.map_nil]
    rw [List.nodup_append]
    refine ⟨h, List.nodup_singleton k, ?_⟩
    intro a ha hb
    simp at hb
    subst hb
    exact (lookupA_eq_none_iff.mp hl) ha

theorem eraseA_sublist (l : List (α × β)) (k : α) : (eraseA l k).Sublist l := by
  induction l with
  | nil => simp [eraseA]
  | cons e t ih =>
    obtain ⟨a, b⟩ := e
    by_cases hak : a = k
    · simp only [eraseA, hak, if_pos rfl]
      exact List.sublist_cons_self _ _
    · simp only [eraseA, if_neg hak]
      exact ih.cons₂ _

theorem lookupA_eraseA_ne (l : List (α × β)) (k k' : α) (h : k' ≠ k) :
    lookupA (eraseA l k) k' = lookupA l k' := by
  induction l with
  | nil => simp [eraseA]
  | cons e t ih =>
    obtain ⟨a, b⟩ := e
    by_cases hak : a = k
    · subst hak; simp [eraseA, lookupA, Ne.symm h]
    · simp [eraseA, hak, lookupA, ih]

theorem lookupA_eraseA_self {l : List (α × β)} {k : α}
    (hn : (l.map Prod.fst).Nodup) : lookupA (eraseA l k) k = none := by
  induction l with
  | nil => simp [eraseA, lookupA]
  | cons e t ih =>
    obtain ⟨a, b⟩ := e
    simp only [List.map_cons, List.nodup_cons] at hn
    by_cases hak : a = k
    · subst hak
      simp only [eraseA, if_pos rfl]
      exact lookupA_eq_none_iff.mpr hn.1
    · simp [eraseA, hak, lookupA, ih hn.2]

theorem eraseA_eq_of_none {l : List (α × β)} {k : α}
    (h : lookupA l k = none) : eraseA l k = l := by
  induction l with
  | nil => rfl
  | cons e t ih =>
    obtain ⟨a, b⟩ := e
    by_cases hak : a = k
    · subst hak; simp [lookupA] at h
    · simp [lookupA, hak] at h
      simp [eraseA, hak, ih h]

theorem length_eraseA_of_isSome {l : List (α × β)} {k : α}
    (h : (lookupA l k).isSome = true) : (eraseA l k).length + 1 = l.length := by
  induction l with
  | nil => simp [lookupA] at h
  | cons e t ih =>
    obtain ⟨a, b⟩ := e
    by_cases hak : a = k
    · subst hak; simp [eraseA]
    · simp [lookupA, hak] at h
      simp [eraseA, hak]
      exact ih h

end AListLemmas

/-! ## General list helpers -/

section ListHelpers

variable {γ : Type}

theorem getD_snoc_length (l : List γ) (x d : γ) : (l ++ [x]).getD l.length d = x := by
  rw [List.getD_eq_getElem?_getD]
  simp

theorem getD_set_self (l : List γ) (i : Nat) (a d : γ) (h : i < l.length) :
    (l.set i a).getD i d = a := by
  rw [List.getD_eq_getElem?_getD, List.getElem?_set_self h]
  rfl

theorem getD_set_ne (l : List γ) (i j : Nat) (a d : γ) (h : i ≠ j) :
    (l.set i a).getD j d = l.getD j d := by
  rw [List.getD_eq_getElem?_getD, List.getElem?_set_ne h, ← List.getD_eq_getElem?_getD]

theorem getD_eraseIdx_lt : ∀ (l : List γ) (i j : Nat) (d : γ), j < i →
    (l.eraseIdx i).getD j d = l.getD j d
  | [], _, _, _, _ => rfl
  | _ :: _, 0, j, d, h => absurd h (Nat.not_lt_zero j)
  | a :: t, i + 1, 0, d, _ => by simp [List.eraseIdx]
  | a :: t, i + 1, j + 1, d, h => by
    simp only [List.eraseIdx, List.getD_cons_succ]
    exact getD_eraseIdx_lt t i j d (Nat.lt_of_succ_lt_succ h)

theorem getD_eraseIdx_ge : ∀ (l : List γ) (i j : Nat) (d : γ), i ≤ j →
    (l.eraseIdx i).getD j d = l.getD (j + 1) d
  | [], _, _, _, _ => rfl
  | a :: t, 0, j, d, _ => by simp [List.eraseIdx, List.getD_cons_succ]
  | a :: t, i + 1, 0, d, h => absurd h (by omega)
  | a :: t, i + 1, j + 1, d, h => by
    simp only [List.eraseIdx, List.getD_cons_succ]
    exact getD_eraseIdx_ge t i j d (Nat.le_of_succ_le_succ h)

theorem getD_mem (l : List γ) (i : Nat) (d : γ) (h : i < l.length) :
    l.getD i d ∈ l := by
  rw [List.getD_eq_getElem l d h]
  exact l.getElem_mem h

theorem mem_iff_getD (l : List γ) (a d : γ) :
    a ∈ l ↔ ∃ i, i < l.length ∧ l.getD i d = a := by
  rw [List.mem_iff_getElem]
  constructor
  · rintro ⟨n, hn, he⟩
    exact ⟨n, hn, by rw [List.getD_eq_getElem l d hn]; exact he⟩
  · rintro ⟨n, hn, he⟩
    exact ⟨n, hn, by rw [← List.getD_eq_getElem l d hn]; exact he⟩

theorem findIdx?_some_spec (p : γ → Bool) (d : γ) :
    ∀ (l : List γ) (i : Nat), List.findIdx? p l = some i →
      i < l.length ∧ p (l.getD i d) = true ∧ ∀ j, j < i → p (l.getD j d) = false := by
  intro l
  induction l with
  | nil => intro i h; simp [List.findIdx?_nil] at h
  | cons a t ih =>
    intro i h
    rw [List.findIdx?_cons] at h
    by_cases hp : p a = true
    · rw [if_pos hp] at h
      cases h
      exact ⟨Nat.succ_pos _, by simpa using hp, fun j hj => absurd hj (Nat.not_lt_zero j)⟩
    · rw [if_neg hp, List.findIdx?_succ] at h
      cases ht : List.findIdx? p t with
      | none => rw [ht] at h; simp at h
      | some k =>
        rw [ht] at h
        have hik : k + 1 = i := by simpa using h
        subst hik
        obtain ⟨hk1, hk2, hk3⟩ := ih k ht
        refine ⟨by simpa using Nat.succ_lt_succ hk1, by simpa using hk2, ?_⟩
        intro j hj
        cases j with
        | zero => simpa using eq_false_of_ne_true hp
        | succ j' =>
          simp only [List.getD_cons_succ]
          exact hk3 j' (Nat.lt_of_succ_lt_succ hj)

theorem findIdx?_eq_some_of_first (p : γ → Bool) (d : γ) :
    ∀ (l : List γ) (i : Nat), i < l.length → p (l.getD i d) = true →
      (∀ j, j < i → p (l.getD j d) = false) → List.findIdx? p l = some i := by
  intro l
  induction l with
  | nil => intro i h; simp at h
  | cons a t ih =>
    intro i hi hp hfirst
    rw [List.findIdx?_cons]
    cases i with
    | zero =>
      rw [if_pos (by simpa using hp)]
    | succ i' =>
      have ha : p a = false := by simpa using hfirst 0 (Nat.succ_pos i')
      rw [if_neg (by simp [ha]), List.findIdx?_succ]
      have := ih i' (by simpa using Nat.lt_of_succ_lt_succ hi) (by simpa using hp)
        (fun j hj => by simpa using hfirst (j + 1) (Nat.succ_lt_succ hj))
      rw [this]
      rfl

end ListHelpers

section DictHelpers

variable {α β : Type} [DecidableEq α]

theorem mem_dinsert {l : List (α × β)} {k : α} {v : β} {x : α × β}
    (h : x ∈ dinsert l k v) : x ∈ l ∨ x = (k, v) := by
  induction l with
  | nil => simpa [dinsert] using h
  | cons e t ih =>
    obtain ⟨a, b⟩ := e
    by_cases hak : a = k
    · subst hak
      simp only [dinsert, if_true, eq_self_iff_true, List.mem_cons] at h
      cases h with
      | inl h1 => exact Or.inr h1
      | inr h1 => exact Or.inl (List.mem_cons_of_mem _ h1)
    · simp only [dinsert, if_neg hak, List.mem_cons] at h
      cases h with
      | inl h1 => exact Or.inl (by simp [h1])
      | inr h1 =>
        cases ih h1 with
        | inl h2 => exact Or.inl (List.mem_cons_of_mem _ h2)
        | inr h2 => exact Or.inr h2

theorem entry_of_mem_keys {l : List (α × β)} {k : α} (h : k ∈ l.map Prod.fst) :
    ∃ b, (k, b) ∈ l := by
  obtain ⟨⟨a, b⟩, hm, he⟩ := List.mem_map.mp h
  exact ⟨b, by cases he; exact hm⟩

theorem lookupA_map_keyed {γ' : Type} (f : α × β → γ') (l : List (α × β)) (k : α) :
    lookupA (l.map (fun ci => (ci.1, f ci))) k = (lookupA l k).map (fun b => f (k, b)) := by
  induction l with
  | nil => simp [lookupA]
  | cons e t ih =>
    obtain ⟨a, b⟩ := e
    by_cases hak : a = k
    · subst hak; simp [lookupA]
    · simp [lookupA, hak, ih]

theorem map_fst_map_keyed {γ' : Type} (f : α × β → γ') (l : List (α × β)) :
    (l.map (fun ci => (ci.1, f ci))).map Prod.fst = l.map Prod.fst := by
  induction l with
  | nil => rfl
  | cons e t ih => simp [ih]

theorem lookupA_eq_none_of_contains_false {l : List (α × β)} {k : α}
    (h : containsA l k = false) : lookupA l k = none := by
  unfold containsA at h
  cases hl : lookupA l k with
  | none => rfl
  | some v => rw [hl] at h; simp at h

theorem contains_true_of_lookupA {l : List (α × β)} {k : α} {v : β}
    (h : lookupA l k = some v) : containsA l k = true := by
  unfold containsA
  rw [h]
  rfl

end DictHelpers

section ZipHelpers

variable {γ δ : Type}

theorem mem_zip_left {l : List γ} {m : List δ} (h : l.length = m.length) :
    ∀ {x}, x ∈ l → ∃ y, (x, y) ∈ l.zip m := by
  induction l generalizing m with
  | nil => intro x hx; simp at hx
  | cons a t ih =>
    intro x hx
    cases m with
    | nil => simp at h
    | cons b s =>
      rcases List.mem_cons.mp hx with hx | hx
      · exact ⟨b, by simp [hx]⟩
      · obtain ⟨y, hy⟩ := ih (by simpa using h) hx
        exact ⟨y, List.mem_cons_of_mem _ hy⟩

theorem zip_getD : ∀ (l : List γ) (m : List δ) (i : Nat) (dl : γ) (dm : δ),
    i < l.length → l.length = m.length →
    (l.zip m).getD i (dl, dm) = (l.getD i dl, m.getD i dm)
  | [], _, i, _, _, hi, _ => absurd hi (by simp)
  | a :: t, [], _, _, _, _, h => by simp at h
  | a :: t, b :: s, 0, dl, dm, _, _ => rfl
  | a :: t, b :: s, i + 1, dl, dm, hi, h => by
    simp only [List.zip_cons_cons, List.getD_cons_succ]
    exact zip_getD t s i dl dm (by simpa using hi) (by simpa using h)

end ZipHelpers

/-! ## Lemmas about `Index.adjust_for_deletion` -/

theorem shiftEntry_fst {p : Nat} {e : Value × Nat} {f : Value × Nat}
    (h : shiftEntry p e = some f) : f.1 = e.1 := by
  unfold shiftEntry at h
  split at h
  · cases h; rfl
  · split at h
    · cases h; rfl
    · exact Option.noConfusion h

theorem lookupA_filterMap_shift_none {l : List (Value × Nat)} {p : Nat} {k : Value}
    (h : k ∉ l.map Prod.fst) : lookupA (l.filterMap (shiftEntry p)) k = none := by
  induction l with
  | nil => simp [lookupA]
  | cons e t ih =>
    obtain ⟨v, i⟩ := e
    simp only [List.map_cons, List.mem_cons, not_or] at h
    have hvk : ¬ v = k := fun hh => h.1 hh.symm
    cases hs : shiftEntry p (v, i) with
    | none =>
      simp only [List.filterMap_cons, hs]
      exact ih h.2
    | some f =>
      obtain ⟨w, j⟩ := f
      have hw : w = v := shiftEntry_fst hs
      subst hw
      simp only [List.filterMap_cons, hs]
      simp [lookupA, hvk, ih h.2]

theorem lookupA_filterMap_shift {l : List (Value × Nat)} {p : Nat} {k : Value}
    (hn : (l.map Prod.fst).Nodup) :
    lookupA (l.filterMap (shiftEntry p)) k =
      (lookupA l k).bind
        (fun i => if i = p then none else some (if p < i then i - 1 else i)) := by
  induction l with
  | nil => simp [lookupA]
  | cons e t ih =>
    obtain ⟨v, i⟩ := e
    simp only [List.map_cons, List.nodup_cons] at hn
    by_cases hvk : v = k
    · subst hvk
      rcases Nat.lt_trichotomy p i with h1 | h1 | h1
      · simp only [List.filterMap_cons, shiftEntry, if_pos h1]
        simp [lookupA, Ne.symm (Nat.ne_of_lt h1), h1]
      · subst h1
        simp only [List.filterMap_cons, shiftEntry, if_neg (lt_irrefl p)]
        simp [lookupA, lookupA_filterMap_shift_none hn.1]
      · simp only [List.filterMap_cons, shiftEntry, if_neg (not_lt_of_gt h1), if_pos h1]
        simp [lookupA, Nat.ne_of_lt h1, not_lt_of_gt h1]
    · have hgoal : lookupA (t.filterMap (shiftEntry p)) k =
          (lookupA t k).bind
            (fun i => if i = p then none else some (if p < i then i - 1 else i)) :=
        ih hn.2
      rcases Nat.lt_trichotomy p i with h1 | h1 | h1
      · simp only [List.filterMap_cons, shiftEntry, if_pos h1]
        simp [lookupA, hvk, hgoal]
      · subst h1
        simp only [List.filterMap_cons, shiftEntry, if_neg (lt_irrefl p)]
        simp [lookupA, hvk, hgoal]
      · simp only [List.filterMap_cons, shiftEntry, if_neg (not_lt_of_gt h1), if_pos h1]
        simp [lookupA, hvk, hgoal]

theorem map_fst_filterMap_shift {l : List (Value × Nat)} {p : Nat}
    (h : ∀ e ∈ l, e.2 ≠ p) :
    (l.filterMap (shiftEntry p)).map Prod.fst = l.map Prod.fst := by
  induction l with
  | nil => simp
  | cons e t ih =>
    obtain ⟨v, i⟩ := e
    have hip : i ≠ p := h (v, i) (List.mem_cons_self _ _)
    have ht : ∀ e ∈ t, e.2 ≠ p := fun e he => h e (List.mem_cons_of_mem _ he)
    rcases Nat.lt_trichotomy p i with h1 | h1 | h1
    · simp only [List.filterMap_cons, shiftEntry, if_pos h1]
      simp [ih ht]
    · exact absurd h1.symm hip
    · simp only [List.filterMap_cons, shiftEntry, if_neg (not_lt_of_gt h1), if_pos h1]
      simp [ih ht]

theorem length_filterMap_shift {l : List (Value × Nat)} {p : Nat}
    (h : ∀ e ∈ l, e.2 ≠ p) :
    (l.filterMap (shiftEntry p)).length = l.length := by
  have := map_fst_filterMap_shift h
  calc (l.filterMap (shiftEntry p)).length
      = ((l.filterMap (shiftEntry p)).map Prod.fst).length := (List.length_map _ _).symm
    _ = (l.map Prod.fst).length := by rw [this]
    _ = l.length := List.length_map _ _

theorem foldl_adjStep_spec (p : Nat) :
    ∀ (l a : List (Value × Nat)) (r : List (Nat × Value)),
      ((a.map Prod.fst) ++ (l.map Prod.fst)).Nodup →
      (l.foldl (adjStep p) (a, r)).1 = a ++ l.filterMap (shiftEntry p) := by
  intro l
  induction l with
  | nil => intro a r _; simp
  | cons e t ih =>
    intro a r h
    obtain ⟨v, i⟩ := e
    have hva : v ∉ a.map Prod.fst := by
      rw [List.nodup_append] at h
      intro hv
      exact h.2.2 hv (List.mem_cons_self _ _)
    have hnone : lookupA a v = none := lookupA_eq_none_iff.mpr hva
    rcases Nat.lt_trichotomy p i with h1 | h1 | h1
    · have hstep : adjStep p (a, r) (v, i) =
          (a ++ [(v, i - 1)], dinsert r (i - 1) v) := by
        simp [adjStep, h1, dinsert_eq_append _ hnone]
      have hkeys : (((a ++ [(v, i - 1)]).map Prod.fst) ++ (t.map Prod.fst)).Nodup := by
        simpa [List.append_assoc] using h
      calc ((((v, i) :: t).foldl (adjStep p) (a, r))).1
          = (t.foldl (adjStep p) (a ++ [(v, i - 1)], dinsert r (i - 1) v)).1 := by
            rw [List.foldl_cons, hstep]
        _ = (a ++ [(v, i - 1)]) ++ t.filterMap (shiftEntry p) := ih _ _ hkeys
        _ = a ++ ((v, i) :: t).filterMap (shiftEntry p) := by
            simp [List.filterMap_cons, shiftEntry, if_pos h1, List.append_assoc]
    · subst h1
      have hstep : adjStep p (a, r) (v, p) = (a, r) := by
        simp [adjStep]
      have hkeys : ((a.map Prod.fst) ++ (t.map Prod.fst)).Nodup := by
        refine h.sublist ?_
        exact List.Sublist.append_left (List.sublist_cons_self _ _) _
      calc ((((v, p) :: t).foldl (adjStep p) (a, r))).1
          = (t.foldl (adjStep p) (a, r)).1 := by rw [List.foldl_cons, hstep]
        _ = a ++ t.filterMap (shiftEntry p) := ih _ _ hkeys
        _ = a ++ ((v, p) :: t).filterMap (shiftEntry p) := by
            simp [List.filterMap_cons, shiftEntry]
    · have hstep : adjStep p (a, r) (v, i) = (a ++ [(v, i)], dinsert r i v) := by
        simp [adjStep, if_neg (not_lt_of_gt h1), h1, dinsert_eq_append _ hnone]
      have hkeys : (((a ++ [(v, i)]).map Prod.fst) ++ (t.map Prod.fst)).Nodup := by
        simpa [List.append_assoc] using h
      calc ((((v, i) :: t).foldl (adjStep p) (a, r))).1
          = (t.foldl (adjStep p) (a ++ [(v, i)], dinsert r i v)).1 := by
            rw [List.foldl_cons, hstep]
        _ = (a ++ [(v, i)]) ++ t.filterMap (shiftEntry p) := ih _ _ hkeys
        _ = a ++ ((v, i) :: t).filterMap (shiftEntry p) := by
            simp [List.filterMap_cons, shiftEntry, if_neg (not_lt_of_gt h1), if_pos h1,
              List.append_assoc]

theorem adjust_index_spec (ix : Index) (p : Nat)
    (hn : (ix._index.map Prod.fst).Nodup) :
    (ix.adjust_for_deletion p)._index = ix._index.filterMap (shiftEntry p) := by
  show (ix._index.foldl (adjStep p) ([], [])).1 = _
  simpa using foldl_adjStep_spec p ix._index [] [] (by simpa using hn)

/-! ## Column validation lemmas -/

theorem validate_value_null (c : Column) : c.validate_value .null = .ok .null := rfl

theorem validate_value_idem (c : Column) (v vv : Value)
    (h : c.validate_value v = .ok vv) : c.validate_value vv = .ok vv := by
  cases hdt : c.data_type with
  | INT =>
    cases v with
    | null =>
      simp [Column.validate_value] at h
      subst h
      rfl
    | int n =>
      simp [Column.validate_value, hdt] at h
      subst h
      simp [Column.validate_value, hdt]
    | text s =>
      cases hs : strToInt? s with
      | none => simp [Column.validate_value, hdt, hs] at h
      | some n =>
        simp [Column.validate_value, hdt, hs] at h
        subst h
        simp [Column.validate_value, hdt]
  | TEXT =>
    cases v with
    | null =>
      simp [Column.validate_value] at h
      subst h
      rfl
    | int n =>
      simp [Column.validate_value, hdt] at h
      subst h
      simp [Column.validate_value, hdt]
    | text s =>
      simp [Column.validate_value, hdt] at h
      subst h
      simp [Column.validate_value, hdt]

/-! ## Insert machinery -/

theorem buildRow_cons_inv (t : Table) (col : Column) (v : Value)
    (rest : List (Column × Value)) (row0 row : Row)
    (h : t.buildRow ((col, v) :: rest) row0 = .ok row) :
    ∃ vv, col.validate_value v = .ok vv ∧
      t.buildRow rest (dinsert row0 col.name vv) = .ok row ∧
      ((col.is_primary_key || col.is_unique) = true →
        ∀ ixObj, lookupA t.indexes col.name = some ixObj →
          ixObj.contains vv = false) := by
  unfold Table.buildRow at h
  cases hv : col.validate_value v with
  | error e =>
    simp only [hv] at h
    exact Except.noConfusion h
  | ok vv =>
    simp only [hv] at h
    by_cases hind : (col.is_primary_key || col.is_unique) = true
    · rw [if_pos hind] at h
      cases hix : lookupA t.indexes col.name with
      | none =>
        simp only [hix] at h
        refine ⟨vv, rfl, h, fun _ ixObj hx => ?_⟩
        exact Option.noConfusion hx
      | some ixObj =>
        simp only [hix] at h
        cases hc : ixObj.contains vv with
        | true => simp [hc] at h
        | false =>
          simp only [hc, Bool.false_eq_true, if_false] at h
          refine ⟨vv, rfl, h, fun _ ixObj' hx => ?_⟩
          cases hx
          exact hc
    · rw [if_neg hind] at h
      exact ⟨vv, rfl, h, fun hcon => absurd hcon hind⟩

theorem buildRow_spec (t : Table) :
    ∀ (pairs : List (Column × Value)) (row0 row : Row),
      t.buildRow pairs row0 = .ok row →
      (pairs.map (fun p => p.1.name)).Nodup →
      (∀ p ∈ pairs, p.1.name ∉ row0.map Prod.fst) →
      (row.map Prod.fst = row0.map Prod.fst ++ pairs.map (fun p => p.1.name)) ∧
      (∀ c, c ∉ pairs.map (fun p => p.1.name) → lookupA row c = lookupA row0 c) ∧
      (∀ p ∈ pairs, ∃ vv, p.1.validate_value p.2 = .ok vv ∧
        lookupA row p.1.name = some vv ∧
        ((p.1.is_primary_key || p.1.is_unique) = true →
          ∀ ixObj, lookupA t.indexes p.1.name = some ixObj →
            ixObj.contains vv = false)) := by
  intro pairs
  induction pairs with
  | nil =>
    intro row0 row h _ _
    unfold Table.buildRow at h
    cases h
    exact ⟨by simp, fun c _ => rfl, fun p hp => absurd hp (List.not_mem_nil p)⟩
  | cons pr rest ih =>
    intro row0 row h hn hfresh
    obtain ⟨col, v⟩ := pr
    obtain ⟨vv, hv, hrec, hchk⟩ := buildRow_cons_inv t col v rest row0 row h
    simp only [List.map_cons, List.nodup_cons] at hn
    have hfresh0 : col.name ∉ row0.map Prod.fst :=
      hfresh _ (List.mem_cons_self _ _)
    have hnone : lookupA row0 col.name = none := lookupA_eq_none_iff.mpr hfresh0
    have hds : dinsert row0 col.name vv = row0 ++ [(col.name, vv)] :=
      dinsert_eq_append _ hnone
    have hfresh' : ∀ p ∈ rest, p.1.name ∉ (dinsert row0 col.name vv).map Prod.fst := by
      intro p hp
      rw [hds]
      simp only [List.map_append, List.map_cons, List.map_nil, List.mem_append,
        List.mem_singleton, not_or]
      refine ⟨hfresh p (List.mem_cons_of_mem _ hp), ?_⟩
      intro hcase
      exact hn.1 (List.mem_map.mpr ⟨p, hp, hcase⟩)
    obtain ⟨hkeys, hlook, hpairs⟩ := ih (dinsert row0 col.name vv) row hrec hn.2 hfresh'
    refine ⟨?_, ?_, ?_⟩
    · rw [hkeys, hds]
      simp [List.append_assoc]
    · intro c hc
      simp only [List.map_cons, List.mem_cons, not_or] at hc
      rw [hlook c hc.2, lookupA_dinsert_ne _ _ _ _ hc.1]
    · intro p hp
      rcases List.mem_cons.mp hp with hp1 | hp1
      · cases hp1
        refine ⟨vv, hv, ?_, hchk⟩
        rw [hlook col.name hn.1, lookupA_dinsert_self]
      · exact hpairs p hp1

theorem addLoop_spec (row : Row) (slot : Nat) :
    ∀ (idxs : List (String × Index)),
      (∀ ci ∈ idxs, containsA ci.2._index (rowVal row ci.1) = false) →
      addLoop row slot idxs = (.ok (),
        idxs.map (fun ci => (ci.1,
          { column_name := ci.2.column_name,
            _index := ci.2._index ++ [(rowVal row ci.1, slot)],
            _reverse_index := dinsert ci.2._reverse_index slot (rowVal row ci.1) }))) := by
  intro idxs
  induction idxs with
  | nil => intro _; rfl
  | cons ci rest ih =>
    intro h
    obtain ⟨c, ixObj⟩ := ci
    have hc : containsA ixObj._index (rowVal row c) = false :=
      h _ (List.mem_cons_self _ _)
    have hadd : ixObj.add ((lookupA row c).getD .null) slot = .ok
        { column_name := ixObj.column_name,
          _index := ixObj._index ++ [(rowVal row c, slot)],
          _reverse_index := dinsert ixObj._reverse_index slot (rowVal row c) } := by
      unfold Index.add
      have hrv : ((lookupA row c).getD .null) = rowVal row c := rfl
      rw [hrv, hc]
      simp only [Bool.false_eq_true, if_false]
      rw [dinsert_eq_append _ (lookupA_eq_none_of_contains_false hc)]
    unfold addLoop
    rw [hadd, ih (fun ci hm => h ci (List.mem_cons_of_mem _ hm))]
    simp

theorem insert_eval_error (t : Table) (values : List Value) (e : DBErr)
    (hlen : values.length = t.columns.length)
    (hbr : t.buildRow (t.columns.zip values) [] = .error e) :
    t.insert values = (.error e, t) := by
  unfold Table.insert
  rw [if_neg (by simp [hlen]), hbr]

theorem insert_spec (t : Table) (values : List Value)
    (hnames : (t.columns.map Column.name).Nodup)
    (hidx_nodup : (t.indexes.map Prod.fst).Nodup)
    (hidx_col : ∀ ci ∈ t.indexes, ∃ col ∈ t.columns,
      col.name = ci.1 ∧ (col.is_primary_key || col.is_unique) = true) :
    (∀ e t', t.insert values = (.error e, t') → t' = t) ∧
    (∀ t', t.insert values = (.ok (), t') →
      values.length = t.columns.length ∧
      ∃ row, t.buildRow (t.columns.zip values) [] = .ok row ∧
        t'.name = t.name ∧ t'.columns = t.columns ∧
        t'.rows = t.rows ++ [row] ∧
        row.map Prod.fst = t.columns.map Column.name ∧
        t'.indexes = t.indexes.map (fun ci => (ci.1,
          { column_name := ci.2.column_name,
            _index := ci.2._index ++ [(rowVal row ci.1, t.rows.length)],
            _reverse_index :=
              dinsert ci.2._reverse_index t.rows.length (rowVal row ci.1) }))) := by
  by_cases hlen : values.length = t.columns.length
  · have hzipnames : (t.columns.zip values).map (fun p => p.1.name) =
        t.columns.map Column.name := by
      have hfst : (t.columns.zip values).map Prod.fst = t.columns :=
        List.map_fst_zip _ _ (le_of_eq hlen.symm)
      calc (t.columns.zip values).map (fun p => p.1.name)
          = ((t.columns.zip values).map Prod.fst).map Column.name := by
            rw [List.map_map]; rfl
        _ = t.columns.map Column.name := by rw [hfst]
    cases hbr : t.buildRow (t.columns.zip values) [] with
    | error e =>
      have hres := insert_eval_error t values e hlen hbr
      constructor
      · intro e' t' h
        rw [hres] at h
        cases h
        rfl
      · intro t' h
        rw [hres] at h
        cases h
    | ok row =>
      obtain ⟨hkeys, hlook, hpairs⟩ := buildRow_spec t (t.columns.zip values) [] row hbr
        (by rw [hzipnames]; exact hnames) (by simp)
      have hcontains : ∀ ci ∈ t.indexes,
          containsA ci.2._index (rowVal row ci.1) = false := by
        intro ci hci
        obtain ⟨col, hcol_mem, hname, hind⟩ := hidx_col ci hci
        obtain ⟨v, hpv⟩ := mem_zip_left hlen.symm hcol_mem
        obtain ⟨vv, hv, hrow, hchk⟩ := hpairs (col, v) hpv
        have hlx : lookupA t.indexes ci.1 = some ci.2 :=
          lookupA_eq_some_of_mem_nodup hidx_nodup hci
        have hcf : ci.2.contains vv = false := by
          refine hchk hind ci.2 ?_
          rw [hname]
          exact hlx
        have hrv : rowVal row ci.1 = vv := by
          unfold rowVal
          rw [← hname, hrow]
          rfl
        rw [hrv]
        exact hcf
      have hres : t.insert values = (.ok (),
          { name := t.name, columns := t.columns, rows := t.rows ++ [row],
            indexes := (t.indexes.map (fun ci => (ci.1,
              { column_name := ci.2.column_name,
                _index := ci.2._index ++ [(rowVal row ci.1, t.rows.length)],
                _reverse_index :=
                  dinsert ci.2._reverse_index t.rows.length (rowVal row ci.1) }))) }) := by
        unfold Table.insert
        rw [if_neg (by simp [hlen])]
        simp only [hbr]
        rw [addLoop_spec row t.rows.length t.indexes hcontains]
      constructor
      · intro e' t' h
        rw [hres] at h
        cases h
      · intro t' h
        rw [hres] at h
        cases h
        refine ⟨hlen, row, rfl, rfl, rfl, rfl, ?_, rfl⟩
        rw [hkeys, hzipnames]
        simp
  · have hres : t.insert values = (.error .valueCount, t) := by
      unfold Table.insert
      rw [if_pos (by simp [hlen])]
    constructor
    · intro e' t' h
      rw [hres] at h
      cases h
      rfl
    · intro t' h
      rw [hres] at h
      cases h

theorem buildRow_cons_ok_step (t : Table) (col : Column) (v : Value)
    (rest : List (Column × Value)) (row0 : Row) (vv : Value)
    (hv : col.validate_value v = .ok vv)
    (hstep : (col.is_primary_key || col.is_unique) = true →
      ∀ ixObj, lookupA t.indexes col.name = some ixObj → ixObj.contains vv = false) :
    t.buildRow ((col, v) :: rest) row0 = t.buildRow rest (dinsert row0 col.name vv) := by
  conv_lhs => unfold Table.buildRow
  simp only [hv]
  by_cases hind : (col.is_primary_key || col.is_unique) = true
  · rw [if_pos hind]
    cases hix : lookupA t.indexes col.name with
    | none => rfl
    | some ixObj =>
      have hc := hstep hind ixObj hix
      show (if ixObj.contains vv = true then Except.error DBErr.constraintViolation
        else t.buildRow rest (dinsert row0 col.name vv)) = _
      rw [hc]
      simp
  · rw [if_neg hind]

theorem buildRow_cons_conflict (t : Table) (col : Column) (v : Value)
    (rest : List (Column × Value)) (row0 : Row) (vv : Value) (ixObj : Index)
    (hv : col.validate_value v = .ok vv)
    (hind : (col.is_primary_key || col.is_unique) = true)
    (hix : lookupA t.indexes col.name = some ixObj)
    (hcont : ixObj.contains vv = true) :
    t.buildRow ((col, v) :: rest) row0 = .error .constraintViolation := by
  unfold Table.buildRow
  simp only [hv]
  rw [if_pos hind]
  simp [hix, hcont]

theorem buildRow_conflict (t : Table) :
    ∀ (pairs : List (Column × Value)) (i : Nat) (row0 : Row),
      CleanBefore t pairs i → ConflictAt t pairs i →
      t.buildRow pairs row0 = .error .constraintViolation := by
  intro pairs
  induction pairs with
  | nil =>
    intro i row0 _ hconf
    exact absurd hconf.1 (by simp)
  | cons pr rest ih =>
    intro i row0 hclean hconf
    obtain ⟨col, v⟩ := pr
    cases i with
    | zero =>
      obtain ⟨_, vv, ixObj, hv, hind, hix, hcont⟩ := hconf
      simp only [List.getD_cons_zero] at hv hind hix hcont
      exact buildRow_cons_conflict t col v rest row0 vv ixObj hv hind hix hcont
    | succ j =>
      obtain ⟨vv0, hv0, hchk0⟩ := hclean 0 (Nat.succ_pos j)
      simp only [List.getD_cons_zero] at hv0 hchk0
      have hclean' : CleanBefore t rest j := by
        intro j' hj'
        have hgot := hclean (j' + 1) (Nat.succ_lt_succ hj')
        simpa only [List.getD_cons_succ] using hgot
      have hconf' : ConflictAt t rest j := by
        obtain ⟨hlt, vv, ixObj, hv, hind, hix, hcont⟩ := hconf
        refine ⟨by simpa using Nat.lt_of_succ_lt_succ hlt, vv, ixObj, ?_, ?_, ?_, ?_⟩
        · simpa only [List.getD_cons_succ] using hv
        · simpa only [List.getD_cons_succ] using hind
        · simpa only [List.getD_cons_succ] using hix
        · simpa only [List.getD_cons_succ] using hcont
      rw [buildRow_cons_ok_step t col v rest row0 vv0 hv0 hchk0]
      exact ih j _ hclean' hconf'

theorem insert_ok_inv (t : Table) (values : List Value) (t' : Table)
    (h : t.insert values = (.ok (), t')) :
    values.length = t.columns.length ∧
    ∃ row, t.buildRow (t.columns.zip values) [] = .ok row ∧
      t'.rows = t.rows ++ [row] := by
  unfold Table.insert at h
  by_cases hlen : values.length = t.columns.length
  · rw [if_neg (by simp [hlen])] at h
    cases hbr : t.buildRow (t.columns.zip values) [] with
    | error e =>
      simp only [hbr] at h
      cases h
    | ok row =>
      simp only [hbr] at h
      rcases ha : addLoop row t.rows.length t.indexes with ⟨r, idxs'⟩
      rw [ha] at h
      cases h
      exact ⟨hlen, row, rfl, rfl⟩
  · rw [if_pos (by simp [hlen])] at h
    cases h

theorem second_insert_conflict (t : Table) (values1 values2 : List Value)
    (t1 : Table) (i : Nat) (vv : Value)
    (hnames : (t.columns.map Column.name).Nodup)
    (hidx_nodup : (t.indexes.map Prod.fst).Nodup)
    (hidx_col : ∀ ci ∈ t.indexes, ∃ col ∈ t.columns,
      col.name = ci.1 ∧ (col.is_primary_key || col.is_unique) = true)
    (hidx_contains : ∀ col ∈ t.columns, (col.is_primary_key || col.is_unique) = true →
      containsA t.indexes col.name = true)
    (hok : t.insert values1 = (.ok (), t1))
    (hi : i < t.columns.length)
    (hind : ((t.columns.getD i ⟨"", .TEXT, false, false⟩).is_primary_key ||
      (t.columns.getD i ⟨"", .TEXT, false, false⟩).is_unique) = true)
    (hv1 : (t.columns.getD i ⟨"", .TEXT, false, false⟩).validate_value
      (values1.getD i .null) = .ok vv)
    (hv2 : (t.columns.getD i ⟨"", .TEXT, false, false⟩).validate_value
      (values2.getD i .null) = .ok vv)
    (hlen2 : values2.length = t.columns.length)
    (hclean : CleanBefore t1 (t1.columns.zip values2) i) :
    (∃ ixn, lookupA t1.indexes
        (t.columns.getD i ⟨"", .TEXT, false, false⟩).name = some ixn ∧
      ixn.get vv = some t.rows.length) ∧
    t1.insert values2 = (.error .constraintViolation, t1) := by
  obtain ⟨hlen1, row, hbr, hname1, hcols1, hrows1, hrowkeys, hidx1⟩ :=
    (insert_spec t values1 hnames hidx_nodup hidx_col).2 t1 hok
  have hzipnames : (t.columns.zip values1).map (fun p => p.1.name) =
      t.columns.map Column.name := by
    have hfst : (t.columns.zip values1).map Prod.fst = t.columns :=
      List.map_fst_zip _ _ (le_of_eq hlen1.symm)
    calc (t.columns.zip values1).map (fun p => p.1.name)
        = ((t.columns.zip values1).map Prod.fst).map Column.name := by
          rw [List.map_map]; rfl
      _ = t.columns.map Column.name := by rw [hfst]
  obtain ⟨_, _, hpairs⟩ := buildRow_spec t (t.columns.zip values1) [] row hbr
    (by rw [hzipnames]; exact hnames) (by simp)
  have hzlen : (t.columns.zip values1).length = t.columns.length := by
    rw [List.length_zip, hlen1]
    exact Nat.min_self _
  have hpairmem : (t.columns.getD i ⟨"", .TEXT, false, false⟩, values1.getD i .null) ∈
      t.columns.zip values1 := by
    have hz := zip_getD t.columns values1 i ⟨"", .TEXT, false, false⟩ .null hi hlen1.symm
    rw [← hz]
    exact getD_mem _ i _ (by rw [hzlen]; exact hi)
  obtain ⟨vv0, hv0, hrowi, hchk⟩ := hpairs _ hpairmem
  have hvv0 : vv0 = vv := by
    rw [hv1] at hv0
    cases hv0
    rfl
  subst hvv0
  obtain ⟨ixO, hixO⟩ : ∃ ixO,
      lookupA t.indexes (t.columns.getD i ⟨"", .TEXT, false, false⟩).name = some ixO := by
    have hcc := hidx_contains _ (getD_mem _ i _ hi) hind
    unfold containsA at hcc
    cases hl : lookupA t.indexes (t.columns.getD i ⟨"", .TEXT, false, false⟩).name with
    | none => rw [hl] at hcc; simp at hcc
    | some ixO => exact ⟨ixO, rfl⟩
  have hcontf : ixO.contains vv0 = false := hchk hind ixO hixO
  have hrv : rowVal row (t.columns.getD i ⟨"", .TEXT, false, false⟩).name = vv0 := by
    unfold rowVal
    rw [hrowi]
    rfl
  have hlook1 : lookupA t1.indexes (t.columns.getD i ⟨"", .TEXT, false, false⟩).name =
      some { column_name := ixO.column_name,
             _index := ixO._index ++ [(vv0, t.rows.length)],
             _reverse_index := dinsert ixO._reverse_index t.rows.length vv0 } := by
    rw [hidx1, lookupA_map_keyed, hixO, Option.map_some', hrv]
  have hfwd_none : lookupA ixO._index vv0 = none :=
    lookupA_eq_none_of_contains_false hcontf
  have hget : lookupA (ixO._index ++ [(vv0, t.rows.length)]) vv0 = some t.rows.length := by
    rw [lookupA_append_of_none hfwd_none]
    simp [lookupA]
  refine ⟨⟨_, hlook1, hget⟩, ?_⟩
  have hconf : ConflictAt t1 (t1.columns.zip values2) i := by
    have hz2 := zip_getD t1.columns values2 i ⟨"", .TEXT, false, false⟩ .null
      (by rw [hcols1]; exact hi) (by rw [hcols1, hlen2])
    refine ⟨?_, vv0,
      { column_name := ixO.column_name,
        _index := ixO._index ++ [(vv0, t.rows.length)],
        _reverse_index := dinsert ixO._reverse_index t.rows.length vv0 },
      ?_, ?_, ?_, ?_⟩
    · rw [List.length_zip, hcols1, hlen2, Nat.min_self]
      exact hi
    · rw [hz2, hcols1]
      exact hv2
    · rw [hz2, hcols1]
      exact hind
    · rw [hz2, hcols1]
      exact hlook1
    · unfold Index.contains containsA
      rw [hget]
      rfl
  refine insert_eval_error t1 values2 .constraintViolation ?_ ?_
  · rw [hcols1]
    exact hlen2
  · exact buildRow_conflict t1 _ i [] hclean hconf

theorem zip_names_eq (t : Table) (values : List Value)
    (hlen : values.length = t.columns.length) :
    (t.columns.zip values).map (fun p => p.1.name) = t.columns.map Column.name := by
  have hfst : (t.columns.zip values).map Prod.fst = t.columns :=
    List.map_fst_zip _ _ (le_of_eq hlen.symm)
  calc (t.columns.zip values).map (fun p => p.1.name)
      = ((t.columns.zip values).map Prod.fst).map Column.name := by
        rw [List.map_map]; rfl
    _ = t.columns.map Column.name := by rw [hfst]

/-! ## Claim C2 -/

/-- C2: insert is all-or-nothing. On any failure the table is unchanged (no
row appended, no index entry added); on success the new row is appended at
slot `n` and its value is added to every index; and after a successful
insert, a second insert whose primary-key position validates to the same
value fails with ConstraintViolation and leaves the table unchanged, provided
every column before the primary-key column validates cleanly (so the
uniqueness conflict is the first failure the per-column loop meets). -/
theorem C2_insert_all_or_nothing (t : Table) (values : List Value)
    (hwf : TableWF t) :
    (∀ e t', t.insert values = (.error e, t') → t' = t) ∧
    (∀ t', t.insert values = (.ok (), t') → ∃ row,
      t'.rows = t.rows ++ [row] ∧
      ∀ c ixObj, lookupA t.indexes c = some ixObj →
        ∃ ixn, lookupA t'.indexes c = some ixn ∧
          ixn._index = ixObj._index ++ [(rowVal row c, t.rows.length)]) ∧
    (∀ (values2 : List Value) (t1 : Table) (i : Nat) (vv : Value),
      t.insert values = (.ok (), t1) →
      i < t.columns.length →
      (t.columns.getD i ⟨"", .TEXT, false, false⟩).is_primary_key = true →
      (t.columns.getD i ⟨"", .TEXT, false, false⟩).validate_value
        (values.getD i .null) = .ok vv →
      (t.columns.getD i ⟨"", .TEXT, false, false⟩).validate_value
        (values2.getD i .null) = .ok vv →
      values2.length = t.columns.length →
      CleanBefore t1 (t1.columns.zip values2) i →
      t1.insert values2 = (.error .constraintViolation, t1)) := by
  obtain ⟨h1, h2, h3, h4, h5⟩ := hwf
  refine ⟨(insert_spec t values h1 h2 h3).1, ?_, ?_⟩
  · intro t' hok
    obtain ⟨hlen, row, hbr, hn, hc, hr, hk, hix⟩ := (insert_spec t values h1 h2 h3).2 t' hok
    refine ⟨row, hr, ?_⟩
    intro c ixObj hl
    rw [hix, lookupA_map_keyed, hl, Option.map_some']
    exact ⟨_, rfl, rfl⟩
  · intro values2 t1 i vv hok hi hpk hv1 hv2 hlen2 hclean
    have hind : ((t.columns.getD i ⟨"", .TEXT, false, false⟩).is_primary_key ||
        (t.columns.getD i ⟨"", .TEXT, false, false⟩).is_unique) = true := by
      rw [hpk]; rfl
    exact (second_insert_conflict t values values2 t1 i vv h1 h2 h3 h4 hok hi hind
      hv1 hv2 hlen2 hclean).2

/-- Witness for C2 on the users table holding row (1, a, A). -/
theorem C2_witness :
    TableWF usersT1 ∧
    ((∀ e t', usersT1.insert [Value.int 1, Value.text "c", Value.text "C"] =
        (.error e, t') → t' = usersT1) ∧
    (∀ t', usersT1.insert [Value.int 1, Value.text "c", Value.text "C"] =
        (.ok (), t') → ∃ row,
      t'.rows = usersT1.rows ++ [row] ∧
      ∀ c ixObj, lookupA usersT1.indexes c = some ixObj →
        ∃ ixn, lookupA t'.indexes c = some ixn ∧
          ixn._index = ixObj._index ++ [(rowVal row c, usersT1.rows.length)]) ∧
    (∀ (values2 : List Value) (t1 : Table) (i : Nat) (vv : Value),
      usersT1.insert [Value.int 1, Value.text "c", Value.text "C"] = (.ok (), t1) →
      i < usersT1.columns.length →
      (usersT1.columns.getD i ⟨"", .TEXT, false, false⟩).is_primary_key = true →
      (usersT1.columns.getD i ⟨"", .TEXT, false, false⟩).validate_value
        ([Value.int 1, Value.text "c", Value.text "C"].getD i .null) = .ok vv →
      (usersT1.columns.getD i ⟨"", .TEXT, false, false⟩).validate_value
        (values2.getD i .null) = .ok vv →
      values2.length = usersT1.columns.length →
      CleanBefore t1 (t1.columns.zip values2) i →
      t1.insert values2 = (.error .constraintViolation, t1))) :=
  ⟨by decide, C2_insert_all_or_nothing usersT1
    [Value.int 1, Value.text "c", Value.text "C"] (by decide)⟩

/-! ## Claim C9 -/

/-- C9: null values participate in uniqueness. A successful insert with a
null value in a primary-key/unique column stores and indexes the null (the
index maps null to the new slot), and a second insert with a null in the same
column fails with ConstraintViolation and leaves the table unchanged,
provided the columns before it validate cleanly. -/
theorem C9_null_uniqueness (t : Table) (values1 values2 : List Value)
    (t1 : Table) (i : Nat) (hwf : TableWF t)
    (hok : t.insert values1 = (.ok (), t1))
    (hi : i < t.columns.length)
    (hind : ((t.columns.getD i ⟨"", .TEXT, false, false⟩).is_primary_key ||
      (t.columns.getD i ⟨"", .TEXT, false, false⟩).is_unique) = true)
    (h1 : values1.getD i .null = .null)
    (h2 : values2.getD i .null = .null)
    (hlen2 : values2.length = t.columns.length)
    (hclean : CleanBefore t1 (t1.columns.zip values2) i) :
    (∃ ixn, lookupA t1.indexes
        (t.columns.getD i ⟨"", .TEXT, false, false⟩).name = some ixn ∧
      ixn.get .null = some t.rows.length) ∧
    t1.insert values2 = (.error .constraintViolation, t1) := by
  obtain ⟨hn1, hn2, hn3, hn4, _⟩ := hwf
  refine second_insert_conflict t values1 values2 t1 i .null hn1 hn2 hn3 hn4 hok hi
    hind ?_ ?_ hlen2 hclean
  · rw [h1]
    exact validate_value_null _
  · rw [h2]
    exact validate_value_null _

/-- Witness for C9: inserting a second null primary key into the users table
fails and the first null is indexed at slot 0. -/
theorem C9_witness :
    (TableWF usersT0 ∧
      usersT0.insert [Value.null, Value.text "a", Value.text "A"] = (.ok (), usersTN) ∧
      (0 : Nat) < usersT0.columns.length ∧
      [Value.null, Value.text "b", Value.text "B"].length = usersT0.columns.length) ∧
    ((∃ ixn, lookupA usersTN.indexes
        (usersT0.columns.getD 0 ⟨"", .TEXT, false, false⟩).name = some ixn ∧
      ixn.get .null = some usersT0.rows.length) ∧
    usersTN.insert [Value.null, Value.text "b", Value.text "B"] =
      (.error .constraintViolation, usersTN)) :=
  ⟨⟨by decide, by decide, by decide, by decide⟩,
    C9_null_uniqueness usersT0 [Value.null, Value.text "a", Value.text "A"]
      [Value.null, Value.text "b", Value.text "B"] usersTN 0
      (by decide) (by decide) (by decide) (by decide) (by decide) (by decide)
      (by decide) (fun j hj => absurd hj (Nat.not_lt_zero j))⟩

/-! ## Claim C8 -/

/-- C8: validation is idempotent (re-validating a validated value is a no-op,
for both column types and for null), and an inserted value read back through
`select` with no conditions is exactly the column's validated value. -/
theorem C8_coercion_idempotence :
    (∀ (c : Column) (v vv : Value), c.validate_value v = .ok vv →
      c.validate_value vv = .ok vv) ∧
    (∀ (t : Table) (values : List Value) (t' : Table),
      (t.columns.map Column.name).Nodup →
      t.insert values = (.ok (), t') →
      ∃ row, t'.select none = t.rows ++ [row] ∧
        ∀ p ∈ t.columns.zip values, ∃ vv,
          p.1.validate_value p.2 = .ok vv ∧ rowVal row p.1.name = vv ∧
          p.1.validate_value vv = .ok vv) := by
  refine ⟨validate_value_idem, ?_⟩
  intro t values t' hnames hok
  obtain ⟨hlen, row, hbr, hrows⟩ := insert_ok_inv t values t' hok
  obtain ⟨_, _, hpairs⟩ := buildRow_spec t (t.columns.zip values) [] row hbr
    (by rw [zip_names_eq t values hlen]; exact hnames) (by simp)
  refine ⟨row, ?_, ?_⟩
  · rw [show t'.select none = t'.rows from rfl]
    exact hrows
  · intro p hp
    obtain ⟨vv, hv, hlook, _⟩ := hpairs p hp
    refine ⟨vv, hv, ?_, validate_value_idem _ _ _ hv⟩
    unfold rowVal
    rw [hlook]
    rfl

/-- Witness for C8 at the first insert into the users table. -/
theorem C8_witness :
    ((usersT0.columns.map Column.name).Nodup ∧
      usersT0.insert [Value.int 1, Value.text "a", Value.text "A"] = (.ok (), usersT1)) ∧
    (∃ row, usersT1.select none = usersT0.rows ++ [row] ∧
      ∀ p ∈ usersT0.columns.zip [Value.int 1, Value.text "a", Value.text "A"],
        ∃ vv, p.1.validate_value p.2 = .ok vv ∧ rowVal row p.1.name = vv ∧
          p.1.validate_value vv = .ok vv) :=
  ⟨⟨by decide, by decide⟩,
    C8_coercion_idempotence.2 usersT0 [Value.int 1, Value.text "a", Value.text "A"]
      usersT1 (by decide) (by decide)⟩

/-! ## Claim C5 -/

theorem filter_eq_nil_of_getD {l : List Row} {p : Row → Bool}
    (h : ∀ j, j < l.length → p (l.getD j []) = false) : l.filter p = [] := by
  refine List.filter_eq_nil_iff.mpr ?_
  intro r hr
  obtain ⟨j, hj, hgd⟩ := (mem_iff_getD l r []).mp hr
  rw [← hgd, h j hj]
  simp

theorem filter_eq_singleton_of {p : Row → Bool} :
    ∀ (l : List Row) (i : Nat), i < l.length →
      p (l.getD i []) = true →
      (∀ j, j < l.length → j ≠ i → p (l.getD j []) = false) →
      l.filter p = [l.getD i []] := by
  intro l
  induction l with
  | nil => intro i hi; simp at hi
  | cons a t ih =>
    intro i hi hp hothers
    cases i with
    | zero =>
      simp only [List.getD_cons_zero] at hp ⊢
      rw [List.filter_cons_of_pos hp]
      have ht : t.filter p = [] := by
        refine filter_eq_nil_of_getD ?_
        intro j hj
        have := hothers (j + 1) (Nat.succ_lt_succ hj) (Nat.succ_ne_zero j)
        simpa [List.getD_cons_succ] using this
      rw [ht]
    | succ i' =>
      have ha : p a = false := by
        have := hothers 0 (Nat.succ_pos _) (Ne.symm (Nat.succ_ne_zero i'))
        simpa using this
      rw [List.filter_cons_of_neg (by simp [ha])]
      simp only [List.getD_cons_succ]
      refine ih i' (by simpa using Nat.lt_of_succ_lt_succ hi) (by simpa using hp) ?_
      intro j hj hne
      have := hothers (j + 1) (Nat.succ_lt_succ hj) (by simpa using hne)
      simpa [List.getD_cons_succ] using this

/-- C5: for an indexed column satisfying the index invariant, `select` with
the single equality condition on that column returns exactly the rows a full
scan filtered by `row[C] == v` returns (the fast path and scan path agree,
even as ordered lists). -/
theorem C5_index_scan_equivalence (t : Table) (c : String) (v : Value)
    (ixObj : Index)
    (hix : lookupA t.indexes c = some ixObj)
    (hgood : IndexGood t.rows c ixObj) :
    t.select (some [(c, v)]) = scanSelect t c v := by
  obtain ⟨hlen, hlook, hnodup, hentries⟩ := hgood
  have hsel : t.select (some [(c, v)]) =
      (match ixObj.get v with
       | some idx =>
         match t.rows[idx]? with
         | some r => [r]
         | none => []
       | none => []) := by
    show (match lookupA t.indexes c with
      | some ixObj =>
        match ixObj.get v with
        | some idx =>
          match t.rows[idx]? with
          | some r => [r]
          | none => []
        | none => []
      | none => t.rows.filter (fun row => matchConds row [(c, v)])) = _
    rw [hix]
  rw [hsel]
  cases hget : ixObj.get v with
  | none =>
    have hnone : ∀ j, j < t.rows.length →
        decide (rowVal (t.rows.getD j []) c = v) = false := by
      intro j hj
      rcases eq_or_ne (rowVal (t.rows.getD j []) c) v with he | he
      · exfalso
        have := hlook j hj
        rw [he] at this
        unfold Index.get at hget
        rw [hget] at this
        exact Option.noConfusion this
      · exact decide_eq_false he
    show ([] : List Row) = scanSelect t c v
    unfold scanSelect
    rw [filter_eq_nil_of_getD hnone]
  | some idx =>
    have hmem : (v, idx) ∈ ixObj._index := mem_of_lookupA_eq_some hget
    obtain ⟨hbound, hval⟩ := hentries (v, idx) hmem
    have hgd : t.rows[idx]? = some (t.rows.getD idx []) := by
      rw [List.getElem?_eq_getElem hbound, List.getD_eq_getElem _ _ hbound]
    show (match t.rows[idx]? with
      | some r => [r]
      | none => ([] : List Row)) = scanSelect t c v
    rw [hgd]
    unfold scanSelect
    refine (filter_eq_singleton_of t.rows idx hbound (decide_eq_true hval) ?_).symm
    intro j hj hne
    rcases eq_or_ne (rowVal (t.rows.getD j []) c) v with he | he
    · exfalso
      have hl := hlook j hj
      rw [he] at hl
      unfold Index.get at hget
      rw [hget] at hl
      cases hl
      exact hne rfl
    · exact decide_eq_false he

/-- Witness for C5 on the users table, selecting id = 2 through the index. -/
theorem C5_witness :
    (lookupA usersT2.indexes "id" = some ixW ∧ IndexGood usersT2.rows "id" ixW) ∧
    usersT2.select (some [("id", Value.int 2)]) =
      scanSelect usersT2 "id" (Value.int 2) :=
  ⟨⟨by decide, by decide⟩,
    C5_index_scan_equivalence usersT2 "id" (Value.int 2) ixW (by decide) (by decide)⟩

/-! ## Claim C7 -/

/-- C7: `Index.update(old, new, slot)` performs `remove(old, slot)` and then
`add(new, slot)`; when the add fails because the new value is already present
(after the removal), the raise propagates and the index is left with no
forward entry mapping to `slot` and no reverse entry for `slot`. Hypotheses:
the two maps have distinct keys, the old value currently maps to `slot`, and
`slot` has no other forward preimage. -/
theorem C7_index_update_no_rollback (ix : Index) (old_value new_value : Value)
    (slot : Nat)
    (hf : (ix._index.map Prod.fst).Nodup)
    (hr : (ix._reverse_index.map Prod.fst).Nodup)
    (hold : lookupA ix._index old_value = some slot)
    (huniq : ∀ e ∈ ix._index, e.2 = slot → e.1 = old_value)
    (hdup : containsA (ix.remove old_value slot)._index new_value = true) :
    (ix.update old_value new_value slot).1 = .error .constraintViolation ∧
    (∀ w, lookupA (ix.update old_value new_value slot).2._index w ≠ some slot) ∧
    lookupA (ix.update old_value new_value slot).2._reverse_index slot = none := by
  have hrem_f : (ix.remove old_value slot)._index = eraseA ix._index old_value := by
    unfold Index.remove
    simp [hold]
  have hres : ix.update old_value new_value slot =
      (.error .constraintViolation, ix.remove old_value slot) := by
    unfold Index.update Index.add
    simp [hdup]
  refine ⟨by rw [hres], ?_, ?_⟩
  · intro w hw
    rw [hres] at hw
    simp only at hw
    rw [hrem_f] at hw
    have hmem : (w, slot) ∈ eraseA ix._index old_value := mem_of_lookupA_eq_some hw
    have hmem' : (w, slot) ∈ ix._index := (eraseA_sublist _ _).subset hmem
    have hwo : w = old_value := huniq _ hmem' rfl
    subst hwo
    rw [lookupA_eraseA_self hf] at hw
    exact Option.noConfusion hw
  · rw [hres]
    exact lookupA_eraseA_self hr

/-- Witness for C7 at a concrete two-entry index, updating slot 0 from value
1 to the already-present value 2. -/
theorem C7_witness :
    ((ixW._index.map Prod.fst).Nodup ∧
      (ixW._reverse_index.map Prod.fst).Nodup ∧
      lookupA ixW._index (.int 1) = some 0 ∧
      (∀ e ∈ ixW._index, e.2 = 0 → e.1 = .int 1) ∧
      containsA (ixW.remove (.int 1) 0)._index (.int 2) = true) ∧
    ((ixW.update (.int 1) (.int 2) 0).1 = .error .constraintViolation ∧
      (∀ w, lookupA (ixW.update (.int 1) (.int 2) 0).2._index w ≠ some 0) ∧
      lookupA (ixW.update (.int 1) (.int 2) 0).2._reverse_index 0 = none) :=
  ⟨⟨by decide, by decide, by decide, by decide, by decide⟩,
    C7_index_update_no_rollback ixW (.int 1) (.int 2) 0
      (by decide) (by decide) (by decide) (by decide) (by decide)⟩

/-! ## Claim C4 -/

/-- C4 (code bug): `select` with no conditions is `self.rows.copy()`, a
shallow copy of the outer list. At the value level the result equals the row
store at call time, but the row dictionaries are the stored objects
themselves: in the object-level model, mutating the row reached through the
returned reference changes the table's logical rows. -/
theorem C4_select_no_conditions_aliases :
    (usersT2.select none = usersT2.rows) ∧
    (TableObj.selectAllRefs ⟨[[("id", Value.int 1)]], [0]⟩ = [0]) ∧
    ((TableObj.mutateRef ⟨[[("id", Value.int 1)]], [0]⟩
        ((TableObj.selectAllRefs ⟨[[("id", Value.int 1)]], [0]⟩).getD 0 0)
        "id" (Value.int 99)).logicalRows ≠
      TableObj.logicalRows ⟨[[("id", Value.int 1)]], [0]⟩) ∧
    ((TableObj.mutateRef ⟨[[("id", Value.int 1)]], [0]⟩
        ((TableObj.selectAllRefs ⟨[[("id", Value.int 1)]], [0]⟩).getD 0 0)
        "id" (Value.int 99)).logicalRows = [[("id", Value.int 99)]]) :=
  ⟨rfl, rfl, by decide, by decide⟩

/-! ## Claim C10 -/

/-- C10: every engine operation that targets one table by name leaves every
other table in the catalog unchanged, whether the operation succeeds or
fails. -/
theorem C10_engine_frame (e : DatabaseEngine) (table_name other : String)
    (hne : other ≠ table_name) :
    (∀ columns, lookupA ((e.create_table table_name columns).2).tables other =
      lookupA e.tables other) ∧
    (∀ values, lookupA ((e.insert_into table_name values).2).tables other =
      lookupA e.tables other) ∧
    (∀ cols wh, lookupA ((e.select_from table_name cols wh).2).tables other =
      lookupA e.tables other) ∧
    (∀ ups wh, lookupA ((e.update_table table_name ups wh).2).tables other =
      lookupA e.tables other) ∧
    (∀ wh, lookupA ((e.delete_from table_name wh).2).tables other =
      lookupA e.tables other) ∧
    lookupA ((e.drop_table table_name).2).tables other = lookupA e.tables other := by
  refine ⟨?_, ?_, ?_, ?_, ?_, ?_⟩
  · intro columns
    unfold DatabaseEngine.create_table
    by_cases hc : containsA e.tables table_name = true
    · simp [hc]
    · simp only [Bool.not_eq_true] at hc
      cases hcr : Table.create table_name columns with
      | error err => simp [hc, hcr]
      | ok t => simp [hc, hcr, lookupA_dinsert_ne _ _ _ _ hne]
  · intro values
    unfold DatabaseEngine.insert_into
    cases hl : lookupA e.tables table_name with
    | none => simp [hl]
    | some t =>
      rcases hins : t.insert values with ⟨r, t'⟩
      simp [hl, hins, lookupA_dinsert_ne _ _ _ _ hne]
  · intro cols wh
    unfold DatabaseEngine.select_from
    cases hl : lookupA e.tables table_name with
    | none => simp [hl]
    | some t =>
      cases cols with
      | none => simp [hl]
      | some cs => cases cs <;> simp [hl]
  · intro ups wh
    unfold DatabaseEngine.update_table
    cases hl : lookupA e.tables table_name with
    | none => simp [hl]
    | some t =>
      rcases hupd : t.update ups wh with ⟨r, t'⟩
      simp [hl, hupd, lookupA_dinsert_ne _ _ _ _ hne]
  · intro wh
    unfold DatabaseEngine.delete_from
    cases hl : lookupA e.tables table_name with
    | none => simp [hl]
    | some t =>
      rcases hdel : t.delete wh with ⟨n, t'⟩
      simp [hl, hdel, lookupA_dinsert_ne _ _ _ _ hne]
  · unfold DatabaseEngine.drop_table
    by_cases hc : containsA e.tables table_name = true
    · simp [hc, lookupA_eraseA_ne _ _ _ hne]
    · simp only [Bool.not_eq_true] at hc
      simp [hc]

/-- Witness for C10 on a concrete two-table engine: operations on "users"
leave the "empty" table's entry unchanged. -/
theorem C10_witness :
    ("empty" ≠ "users") ∧
    ((∀ columns, lookupA ((engW.create_table "users" columns).2).tables "empty" =
      lookupA engW.tables "empty") ∧
    (∀ values, lookupA ((engW.insert_into "users" values).2).tables "empty" =
      lookupA engW.tables "empty") ∧
    (∀ cols wh, lookupA ((engW.select_from "users" cols wh).2).tables "empty" =
      lookupA engW.tables "empty") ∧
    (∀ ups wh, lookupA ((engW.update_table "users" ups wh).2).tables "empty" =
      lookupA engW.tables "empty") ∧
    (∀ wh, lookupA ((engW.delete_from "users" wh).2).tables "empty" =
      lookupA engW.tables "empty") ∧
    lookupA ((engW.drop_table "users").2).tables "empty" =
      lookupA engW.tables "empty") :=
  ⟨by decide, C10_engine_frame engW "users" "empty" (by decide)⟩

/-! ## Claim C1 -/

theorem validOKb_spec {t : Table} {cv : String × Value}
    (h : validOKb t cv = true) (ixObj : Index)
    (hix : lookupA t.indexes cv.1 = some ixObj) :
    ∃ col vv, lookupA t.column_dict cv.1 = some col ∧
      col.validate_value cv.2 = .ok vv := by
  unfold validOKb at h
  simp only [hix, Option.isSome_some, Bool.not_true, Bool.false_or] at h
  cases hcd : lookupA t.column_dict cv.1 with
  | none =>
    simp only [hcd] at h
    exact Bool.noConfusion h
  | some col =>
    simp only [hcd] at h
    cases hv : col.validate_value cv.2 with
    | error e =>
      simp only [hv] at h
      exact Bool.noConfusion h
    | ok vv => exact ⟨col, vv, rfl, hv⟩

theorem validateOne_cases (t : Table) (idx : Nat) :
    ∀ (ups : List (String × Value)), ValidOK t ups →
      validateOne t idx ups = .ok () ∨
      validateOne t idx ups = .error .constraintViolation := by
  intro ups
  induction ups with
  | nil => intro _; exact Or.inl rfl
  | cons cv rest ih =>
    intro hva
    have hhead : validOKb t cv = true := hva cv (List.mem_cons_self _ _)
    have hrest : ValidOK t rest := fun x hx => hva x (List.mem_cons_of_mem _ hx)
    unfold validateOne
    cases hix : lookupA t.indexes cv.1 with
    | none => exact ih hrest
    | some ixObj =>
      obtain ⟨col, vv, hcd, hv⟩ := validOKb_spec hhead ixObj hix
      simp only [hcd, hv]
      cases hget : ixObj.get vv with
      | none => exact ih hrest
      | some existing =>
        simp only [hget]
        rcases eq_or_ne existing idx with he | he
        · rw [if_neg (by simp [he])]
          exact ih hrest
        · rw [if_pos (by simp [he])]
          exact Or.inr rfl

theorem validateOne_ok_collision_free (t : Table) (idx : Nat) :
    ∀ (ups : List (String × Value)), validateOne t idx ups = .ok () →
      ∀ cv ∈ ups, ∀ (ixObj : Index) (col : Column) (vv : Value) (j : Nat),
        lookupA t.indexes cv.1 = some ixObj →
        lookupA t.column_dict cv.1 = some col →
        col.validate_value cv.2 = .ok vv →
        ixObj.get vv = some j → j = idx := by
  intro ups
  induction ups with
  | nil =>
    intro _ cv hcv
    simp at hcv
  | cons cv0 rest ih =>
    intro hok cv hcv ixObj col vv j hix hcd hv hget
    unfold validateOne at hok
    cases hix0 : lookupA t.indexes cv0.1 with
    | none =>
      simp only [hix0] at hok
      rcases List.mem_cons.mp hcv with he | he
      · exfalso
        rw [he] at hix
        rw [hix0] at hix
        exact Option.noConfusion hix
      · exact ih hok cv he ixObj col vv j hix hcd hv hget
    | some ixObj0 =>
      simp only [hix0] at hok
      cases hcd0 : lookupA t.column_dict cv0.1 with
      | none =>
        simp only [hcd0] at hok
        exact Except.noConfusion hok
      | some col0 =>
        simp only [hcd0] at hok
        cases hv0 : col0.validate_value cv0.2 with
        | error e =>
          simp only [hv0] at hok
          exact Except.noConfusion hok
        | ok vv0 =>
          simp only [hv0] at hok
          cases hget0 : ixObj0.get vv0 with
          | none =>
            simp only [hget0] at hok
            rcases List.mem_cons.mp hcv with he | he
            · exfalso
              rw [he] at hix hcd hv
              rw [hix0] at hix
              cases hix
              rw [hcd0] at hcd
              cases hcd
              rw [hv0] at hv
              cases hv
              rw [hget0] at hget
              exact Option.noConfusion hget
            · exact ih hok cv he ixObj col vv j hix hcd hv hget
          | some existing =>
            simp only [hget0] at hok
            rcases eq_or_ne existing idx with hee | hee
            · rw [if_neg (by simp [hee])] at hok
              rcases List.mem_cons.mp hcv with he | he
              · rw [he] at hix hcd hv
                rw [hix0] at hix
                cases hix
                rw [hcd0] at hcd
                cases hcd
                rw [hv0] at hv
                cases hv
                rw [hget0] at hget
                cases hget
                exact hee
              · exact ih hok cv he ixObj col vv j hix hcd hv hget
            · rw [if_pos (by simp [hee])] at hok
              exact Except.noConfusion hok

theorem validatePass_collision (t : Table) (ups : List (String × Value)) :
    ∀ (indices : List Nat), ValidOK t ups → Collision t ups indices →
      validatePass t ups indices = .error .constraintViolation := by
  intro indices
  induction indices with
  | nil =>
    intro _ hcol
    obtain ⟨idx, hmem, _⟩ := hcol
    simp at hmem
  | cons idx rest ih =>
    intro hva hcol
    unfold validatePass
    rcases validateOne_cases t idx ups hva with hok | herr
    · simp only [hok]
      obtain ⟨idx0, hmem, cv, hcv, ixObj, col, vv, j, hix, hcd, hv, hget, hne⟩ := hcol
      rcases List.mem_cons.mp hmem with he | he
      · exfalso
        subst he
        exact hne (validateOne_ok_collision_free t idx0 ups hok cv hcv ixObj col vv j
          hix hcd hv hget)
      · exact ih hva ⟨idx0, he, cv, hcv, ixObj, col, vv, j, hix, hcd, hv, hget, hne⟩
    · simp only [herr]

/-- C1 (corrected): when every assignment on an indexed column validates and
some target slot's new value collides with an existing index entry belonging
to a different slot, the whole update is aborted by the validation pass with
ConstraintViolation and the table is completely unchanged. (The original
claim — no partial mutation on any update failure — is refuted by
`C1_counterexample`: failures that only surface in the apply pass, such as
two target rows assigned the same new indexed value or a type error on a
non-indexed assignment, leave partial mutation behind.) -/
theorem C1_update_validation_atomic (t : Table) (ups : List (String × Value))
    (conds : Option (List (String × Value)))
    (hva : ValidOK t ups)
    (hcol : Collision t ups (t.findSlots (t.select conds))) :
    t.update ups conds = (.error .constraintViolation, t) := by
  show (match validatePass t ups (t.findSlots (t.select conds)) with
    | .error e => (.error e, t)
    | .ok _ => applyAll t ups (t.findSlots (t.select conds))) =
    (.error .constraintViolation, t)
  rw [validatePass_collision t ups (t.findSlots (t.select conds)) hva hcol]

/-- C1 counterexample: on the users table with rows (1, a, A) and (2, b, B),
the update assigning id := 5 to both rows raises ConstraintViolation during
the apply pass (both targets get the same new primary-key value), yet the row
store and the id index have been mutated — refuting the claim that a failing
update mutates nothing. -/
theorem C1_counterexample :
    (usersT2.update [("id", Value.int 5)] none).1 = .error .constraintViolation ∧
    (usersT2.update [("id", Value.int 5)] none).2.rows ≠ usersT2.rows ∧
    (usersT2.update [("id", Value.int 5)] none).2.indexes ≠ usersT2.indexes :=
  ⟨by decide, by decide, by decide⟩

/-- Witness for the corrected C1: updating the id of the row with id = 1 to
the value 2 (held by the other row) aborts in the validation pass with no
mutation. -/
theorem C1_witness :
    (ValidOK usersT2 [("id", Value.int 2)] ∧
      Collision usersT2 [("id", Value.int 2)]
        (usersT2.findSlots (usersT2.select (some [("id", Value.int 1)])))) ∧
    usersT2.update [("id", Value.int 2)] (some [("id", Value.int 1)]) =
      (.error .constraintViolation, usersT2) :=
  ⟨⟨by decide,
    ⟨0, by decide, ("id", Value.int 2), by decide, ixW, ⟨"id", .INT, true, true⟩,
      Value.int 2, 1, by decide, by decide, by decide, by decide, by decide⟩⟩,
   C1_update_validation_atomic usersT2 [("id", Value.int 2)]
     (some [("id", Value.int 1)]) (by decide)
     ⟨0, by decide, ("id", Value.int 2), by decide, ixW, ⟨"id", .INT, true, true⟩,
       Value.int 2, 1, by decide, by decide, by decide, by decide, by decide⟩⟩

/-! ## Index invariant: basic consequences -/

theorem indexGood_val_inj {rows : List Row} {c : String} {ix : Index}
    (hg : IndexGood rows c ix) {s1 s2 : Nat}
    (h1 : s1 < rows.length) (h2 : s2 < rows.length)
    (he : rowVal (rows.getD s1 []) c = rowVal (rows.getD s2 []) c) : s1 = s2 := by
  have e1 := hg.2.1 s1 h1
  have e2 := hg.2.1 s2 h2
  rw [he, e2] at e1
  cases e1
  rfl

theorem indexGood_rows_nodup {rows : List Row} {c : String} {ix : Index}
    (hg : IndexGood rows c ix) : rows.Nodup := by
  rw [List.nodup_iff_injective_get]
  rintro ⟨i, hi⟩ ⟨j, hj⟩ he
  have hgd : rows.getD i [] = rows.getD j [] := by
    rw [List.getD_eq_getElem _ _ hi, List.getD_eq_getElem _ _ hj]
    simpa using he
  exact Fin.ext (indexGood_val_inj hg hi hj (by rw [hgd]))

/-! ## Deletion: index transformation -/

theorem index_delete_good {rows : List Row} {c : String} {ix : Index} {p : Nat}
    (hg : IndexGood rows c ix) (hp : p < rows.length) :
    IndexGood (rows.eraseIdx p) c
      ((ix.remove (rowVal (rows.getD p []) c) p).adjust_for_deletion p) ∧
    (∀ q, q < rows.length → q ≠ p →
      ((ix.remove (rowVal (rows.getD p []) c) p).adjust_for_deletion p).get
        (rowVal (rows.getD q []) c) = some (if p < q then q - 1 else q)) := by
  obtain ⟨hlen, hlook, hnodup, hent⟩ := hg
  have hg' : IndexGood rows c ix := ⟨hlen, hlook, hnodup, hent⟩
  have hlp : lookupA ix._index (rowVal (rows.getD p []) c) = some p := hlook p hp
  have hremf : (ix.remove (rowVal (rows.getD p []) c) p)._index =
      eraseA ix._index (rowVal (rows.getD p []) c) := by
    show (if lookupA ix._index (rowVal (rows.getD p []) c) = some p
      then eraseA ix._index (rowVal (rows.getD p []) c) else ix._index) = _
    rw [if_pos hlp]
  have hern : ((eraseA ix._index (rowVal (rows.getD p []) c)).map Prod.fst).Nodup :=
    hnodup.sublist ((eraseA_sublist _ _).map Prod.fst)
  have hadjf : ((ix.remove (rowVal (rows.getD p []) c) p).adjust_for_deletion p)._index =
      (eraseA ix._index (rowVal (rows.getD p []) c)).filterMap (shiftEntry p) := by
    rw [adjust_index_spec _ p (by rw [hremf]; exact hern), hremf]
  have hne_p : ∀ e ∈ eraseA ix._index (rowVal (rows.getD p []) c), e.2 ≠ p := by
    intro e he hep
    have hmem : e ∈ ix._index := (eraseA_sublist _ _).subset he
    obtain ⟨heb, hev⟩ := hent e hmem
    have he1 : e.1 = rowVal (rows.getD p []) c := by rw [← hev, hep]
    have hnone : lookupA (eraseA ix._index (rowVal (rows.getD p []) c))
        (rowVal (rows.getD p []) c) = none := lookupA_eraseA_self hnodup
    rw [lookupA_eq_none_iff] at hnone
    exact hnone (List.mem_map.mpr ⟨e, he, he1⟩)
  have hq : ∀ q, q < rows.length → q ≠ p →
      lookupA (((ix.remove (rowVal (rows.getD p []) c) p).adjust_for_deletion p)._index)
        (rowVal (rows.getD q []) c) = some (if p < q then q - 1 else q) := by
    intro q hqlt hqp
    have hvne : rowVal (rows.getD q []) c ≠ rowVal (rows.getD p []) c := by
      intro hh
      exact hqp (indexGood_val_inj hg' hqlt hp hh)
    rw [hadjf, lookupA_filterMap_shift hern, lookupA_eraseA_ne _ _ _ hvne,
      hlook q hqlt]
    simp [hqp]
  have hrowlen : (rows.eraseIdx p).length = rows.length - 1 :=
    List.length_eraseIdx_of_lt hp
  refine ⟨⟨?_, ?_, ?_, ?_⟩, hq⟩
  · rw [hadjf, length_filterMap_shift hne_p, hrowlen]
    have h1 : (eraseA ix._index (rowVal (rows.getD p []) c)).length + 1 =
        ix._index.length := length_eraseA_of_isSome (by rw [hlp]; rfl)
    omega
  · intro s hs
    rw [hrowlen] at hs
    by_cases hsp : s < p
    · rw [getD_eraseIdx_lt _ _ _ _ hsp, hq s (by omega) (by omega),
        if_neg (by omega)]
    · rw [getD_eraseIdx_ge _ _ _ _ (by omega), hq (s + 1) (by omega) (by omega),
        if_pos (by omega), Nat.add_sub_cancel]
  · rw [hadjf, map_fst_filterMap_shift hne_p]
    exact hern
  · intro e' he'
    rw [hadjf] at he'
    obtain ⟨e, he, hse⟩ := List.mem_filterMap.mp he'
    have hmem : e ∈ ix._index := (eraseA_sublist _ _).subset he
    obtain ⟨heb, hev⟩ := hent e hmem
    have hep : e.2 ≠ p := hne_p e he
    unfold shiftEntry at hse
    by_cases h1 : p < e.2
    · rw [if_pos h1] at hse
      injection hse with hse2
      subst hse2
      refine ⟨?_, ?_⟩
      · show e.2 - 1 < (rows.eraseIdx p).length
        rw [hrowlen]
        omega
      · show rowVal ((rows.eraseIdx p).getD (e.2 - 1) []) c = e.1
        rw [getD_eraseIdx_ge _ _ _ _ (by omega),
          show e.2 - 1 + 1 = e.2 by omega]
        exact hev
    · rw [if_neg h1] at hse
      have h2 : e.2 < p := by omega
      rw [if_pos h2] at hse
      injection hse with hse2
      subst hse2
      refine ⟨?_, ?_⟩
      · show e.2 < (rows.eraseIdx p).length
        rw [hrowlen]
        omega
      · show rowVal ((rows.eraseIdx p).getD e.2 []) c = e.1
        rw [getD_eraseIdx_lt _ _ _ _ h2]
        exact hev

theorem deleteSlot_rows (t : Table) (idx : Nat) :
    (deleteSlot t idx).rows = t.rows.eraseIdx idx := rfl

theorem deleteSlot_columns (t : Table) (idx : Nat) :
    (deleteSlot t idx).columns = t.columns := rfl

theorem deleteSlot_indexes (t : Table) (idx : Nat) :
    (deleteSlot t idx).indexes = t.indexes.map (fun ci => (ci.1,
      (ci.2.remove (rowVal (t.rows.getD idx []) ci.1) idx).adjust_for_deletion idx)) := by
  show ((t.indexes.map (fun ci =>
      (ci.1, ci.2.remove ((lookupA (t.rows.getD idx []) ci.1).getD .null) idx))).map
      (fun ci => (ci.1, ci.2.adjust_for_deletion idx))) = _
  rw [List.map_map]
  rfl

theorem deleteSlot_spec (t : Table) (p : Nat) (hg : TableGood t)
    (hp : p < t.rows.length) :
    TableGood (deleteSlot t p) ∧
    (∀ c ixObj, lookupA t.indexes c = some ixObj →
      ∃ ixn, lookupA (deleteSlot t p).indexes c = some ixn ∧
        ∀ q, q < t.rows.length → q ≠ p →
          ixn.get (rowVal (t.rows.getD q []) c) = some (if p < q then q - 1 else q)) := by
  obtain ⟨⟨h1, h2, h3, h4, h5⟩, hgood⟩ := hg
  have hidx := deleteSlot_indexes t p
  have hrows := deleteSlot_rows t p
  have hcols := deleteSlot_columns t p
  constructor
  · refine ⟨⟨?_, ?_, ?_, ?_, ?_⟩, ?_⟩
    · rw [hcols]
      exact h1
    · rw [hidx, map_fst_map_keyed]
      exact h2
    · intro ci hci
      rw [hidx] at hci
      obtain ⟨ci0, hm0, he0⟩ := List.mem_map.mp hci
      rw [hcols]
      obtain ⟨col, hcm, hcn, hcu⟩ := h3 ci0 hm0
      refine ⟨col, hcm, ?_, hcu⟩
      rw [← he0]
      exact hcn
    · intro col hcm hcu
      rw [hcols] at hcm
      have hc4 := h4 col hcm hcu
      unfold containsA at hc4 ⊢
      rw [hidx, lookupA_map_keyed]
      cases hl : lookupA t.indexes col.name with
      | none => simp [hl] at hc4
      | some ixO => rfl
    · intro r hr
      rw [hrows] at hr
      rw [hcols]
      exact h5 r ((List.eraseIdx_sublist _ _).subset hr)
    · intro ci hci
      rw [hidx] at hci
      obtain ⟨ci0, hm0, he0⟩ := List.mem_map.mp hci
      have hg0 : IndexGood t.rows ci0.1 ci0.2 := hgood ci0 hm0
      rw [hrows, ← he0]
      exact (index_delete_good hg0 hp).1
  · intro c ixObj hl
    have hmem : (c, ixObj) ∈ t.indexes := mem_of_lookupA_eq_some hl
    have hg0 : IndexGood t.rows c ixObj := hgood (c, ixObj) hmem
    refine ⟨_, ?_, (index_delete_good hg0 hp).2⟩
    rw [hidx, lookupA_map_keyed, hl, Option.map_some']

/-! ## Descending sort used by delete -/

theorem mem_insertDesc {x y : Nat} :
    ∀ {l : List Nat}, y ∈ insertDesc x l ↔ y = x ∨ y ∈ l := by
  intro l
  induction l with
  | nil => simp [insertDesc]
  | cons z t ih =>
    by_cases hxz : x ≥ z
    · simp [insertDesc, hxz]
    · simp only [insertDesc, if_neg hxz, List.mem_cons, ih]
      tauto

theorem insertDesc_perm (x : Nat) : ∀ (l : List Nat), (insertDesc x l).Perm (x :: l) := by
  intro l
  induction l with
  | nil => exact List.Perm.refl _
  | cons y t ih =>
    by_cases hxy : x ≥ y
    · rw [insertDesc, if_pos hxy]
    · rw [insertDesc, if_neg hxy]
      exact (ih.cons y).trans (List.Perm.swap x y t)

theorem sortDesc_perm (l : List Nat) : (sortDesc l).Perm l := by
  induction l with
  | nil => exact List.Perm.refl _
  | cons a t ih =>
    show (insertDesc a (sortDesc t)).Perm (a :: t)
    exact (insertDesc_perm a (sortDesc t)).trans (ih.cons a)

theorem insertDesc_sorted (x : Nat) :
    ∀ {l : List Nat}, l.Pairwise (· ≥ ·) → (insertDesc x l).Pairwise (· ≥ ·) := by
  intro l
  induction l with
  | nil => intro _; simp [insertDesc]
  | cons y t ih =>
    intro h
    rw [List.pairwise_cons] at h
    by_cases hxy : x ≥ y
    · rw [insertDesc, if_pos hxy]
      rw [List.pairwise_cons]
      refine ⟨?_, List.pairwise_cons.mpr h⟩
      intro b hb
      rcases List.mem_cons.mp hb with hb | hb
      · omega
      · have := h.1 b hb
        omega
    · rw [insertDesc, if_neg hxy]
      rw [List.pairwise_cons]
      refine ⟨?_, ih h.2⟩
      intro b hb
      rcases mem_insertDesc.mp hb with hb | hb
      · omega
      · exact h.1 b hb

theorem sortDesc_sorted (l : List Nat) : (sortDesc l).Pairwise (· ≥ ·) := by
  induction l with
  | nil => simp [sortDesc]
  | cons a t ih => exact insertDesc_sorted a ih

theorem sortDesc_strict {l : List Nat} (h : l.Nodup) :
    (sortDesc l).Pairwise (· > ·) := by
  have hnd : (sortDesc l).Nodup := (sortDesc_perm l).symm.nodup h
  have hs := sortDesc_sorted l
  exact (hs.and hnd).imp (fun hab => by omega)

/-! ## Content matching (row relocation) -/

theorem contentMatch_iff {r : Row} :
    ∀ {target : Row}, r.map Prod.fst = target.map Prod.fst →
      (r.map Prod.fst).Nodup →
      (contentMatch r target = true ↔ r = target) := by
  induction r with
  | nil =>
    intro target hkeys _
    cases target with
    | nil => simp [contentMatch]
    | cons kw t' => simp at hkeys
  | cons kv r' ih =>
    intro target hkeys hnodup
    obtain ⟨k, v⟩ := kv
    cases target with
    | nil => simp at hkeys
    | cons kw t' =>
      obtain ⟨k2, w⟩ := kw
      simp only [List.map_cons, List.cons.injEq] at hkeys
      obtain ⟨hk, hkt⟩ := hkeys
      subst hk
      simp only [List.map_cons, List.nodup_cons] at hnodup
      have hlk : lookupA ((k, w) :: t') k = some w := by simp [lookupA]
      have htail : ∀ kv' ∈ r', lookupA ((k, w) :: t') kv'.1 = lookupA t' kv'.1 := by
        intro kv' hkv'
        have hne : ¬ k = kv'.1 := by
          intro hh
          exact hnodup.1 (hh ▸ List.mem_map.mpr ⟨kv', hkv', rfl⟩)
        simp [lookupA, hne]
      constructor
      · intro hcm
        unfold contentMatch at hcm
        rw [List.all_cons, Bool.and_eq_true] at hcm
        obtain ⟨hhead, htl⟩ := hcm
        rw [hlk] at hhead
        have hwv : w = v := by simpa using hhead
        have hr't' : contentMatch r' t' = true := by
          unfold contentMatch
          rw [List.all_eq_true] at htl ⊢
          intro kv' hkv'
          have hx := htl kv' hkv'
          rw [htail kv' hkv'] at hx
          exact hx
        rw [(ih hkt hnodup.2).mp hr't', hwv]
      · intro he
        injection he with h1 h2
        injection h1 with _ h1v
        subst h1v
        subst h2
        unfold contentMatch
        rw [List.all_cons, Bool.and_eq_true]
        constructor
        · rw [hlk]
          simp
        · rw [List.all_eq_true]
          intro kv' hkv'
          rw [htail kv' hkv',
            lookupA_eq_some_of_mem_nodup hnodup.2 (by exact hkv' : (kv'.1, kv'.2) ∈ r')]
          simp

theorem contentMatch_refl {r : Row} (hn : (r.map Prod.fst).Nodup) :
    contentMatch r r = true :=
  (contentMatch_iff rfl hn).mpr rfl

theorem findIdx_single (t : Table) (p : Nat)
    (hg : TableGood t) (hp : p < t.rows.length)
    (hne : ∀ q, q < p → t.rows.getD q [] ≠ t.rows.getD p []) :
    t.rows.findIdx? (fun r => contentMatch r (t.rows.getD p [])) = some p := by
  obtain ⟨⟨h1, _, _, _, h5⟩, _⟩ := hg
  have hschema : ∀ q, q < t.rows.length →
      (t.rows.getD q []).map Prod.fst = t.columns.map Column.name :=
    fun q hq => h5 _ (getD_mem _ q _ hq)
  refine findIdx?_eq_some_of_first _ [] t.rows p hp ?_ ?_
  · exact contentMatch_refl (by rw [hschema p hp]; exact h1)
  · intro j hj
    have hjlt : j < t.rows.length := lt_trans hj hp
    have hkeys : (t.rows.getD j []).map Prod.fst = (t.rows.getD p []).map Prod.fst := by
      rw [hschema j hjlt, hschema p hp]
    have hiff := contentMatch_iff hkeys (by rw [hschema j hjlt]; exact h1)
    cases hcm : contentMatch (t.rows.getD j []) (t.rows.getD p []) with
    | false => rfl
    | true => exact absurd (hiff.mp hcm) (hne j hj)

/-! ## Claim C6 -/

/-- C6: `adjust_for_deletion` renumbers exactly the entries above the deleted
slot down by one and leaves the entries below unchanged (an entry still at
the deleted slot itself would be dropped, witnessing the documented
precondition that `remove` ran first); and after deleting exactly the row at
slot `p`, the remaining rows are the original rows with slot `p` removed and
every index lookup of a remaining row's value yields its prior slot minus one
when it was above `p`, unchanged otherwise. -/
theorem C6_deletion_compaction :
    (∀ (ix : Index) (p : Nat), (ix._index.map Prod.fst).Nodup →
      (∀ v, ix.get v = none → (ix.adjust_for_deletion p).get v = none) ∧
      (∀ v i, ix.get v = some i → (ix.adjust_for_deletion p).get v =
        if i = p then none else some (if p < i then i - 1 else i))) ∧
    (∀ (t : Table) (p : Nat) (conds : Option (List (String × Value))),
      TableGood t → p < t.rows.length →
      (∀ q, q < p → t.rows.getD q [] ≠ t.rows.getD p []) →
      t.select conds = [t.rows.getD p []] →
      (t.delete conds).1 = 1 ∧
      (t.delete conds).2.rows = t.rows.eraseIdx p ∧
      (∀ c ixObj, lookupA t.indexes c = some ixObj →
        ∃ ixn, lookupA (t.delete conds).2.indexes c = some ixn ∧
          ∀ q, q < t.rows.length → q ≠ p →
            ixn.get (rowVal (t.rows.getD q []) c) =
              some (if p < q then q - 1 else q))) := by
  constructor
  · intro ix p hn
    constructor
    · intro v hv
      unfold Index.get at hv ⊢
      rw [adjust_index_spec ix p hn]
      exact lookupA_filterMap_shift_none (lookupA_eq_none_iff.mp hv)
    · intro v i hv
      unfold Index.get at hv ⊢
      rw [adjust_index_spec ix p hn, lookupA_filterMap_shift hn, hv]
      rfl
  · intro t p conds hg hp hne hsel
    have hfs : t.findSlots (t.select conds) = [p] := by
      rw [hsel]
      unfold Table.findSlots
      simp only [List.filterMap_cons, List.filterMap_nil]
      rw [findIdx_single t p hg hp hne]
    have hdel : t.delete conds = (1, deleteSlot t p) := by
      show ((sortDesc (t.findSlots (t.select conds))).length,
        (sortDesc (t.findSlots (t.select conds))).foldl deleteSlot t) = _
      rw [hfs]
      rfl
    obtain ⟨_, hgets⟩ := deleteSlot_spec t p hg hp
    rw [hdel]
    exact ⟨rfl, deleteSlot_rows t p, hgets⟩

/-- Witness for C6: adjusting a concrete index after deleting slot 0, and
deleting the id = 1 row of the users table. -/
theorem C6_witness :
    ((ixW._index.map Prod.fst).Nodup ∧
      ((∀ v, ixW.get v = none → (ixW.adjust_for_deletion 0).get v = none) ∧
       (∀ v i, ixW.get v = some i → (ixW.adjust_for_deletion 0).get v =
         if i = 0 then none else some (if 0 < i then i - 1 else i)))) ∧
    (TableGood usersT2 ∧ 0 < usersT2.rows.length ∧
      usersT2.select (some [("id", Value.int 1)]) = [usersT2.rows.getD 0 []] ∧
      ((usersT2.delete (some [("id", Value.int 1)])).1 = 1 ∧
       (usersT2.delete (some [("id", Value.int 1)])).2.rows =
         usersT2.rows.eraseIdx 0 ∧
       (∀ c ixObj, lookupA usersT2.indexes c = some ixObj →
         ∃ ixn, lookupA (usersT2.delete (some [("id", Value.int 1)])).2.indexes c =
             some ixn ∧
           ∀ q, q < usersT2.rows.length → q ≠ 0 →
             ixn.get (rowVal (usersT2.rows.getD q []) c) =
               some (if 0 < q then q - 1 else q)))) :=
  ⟨⟨by decide, C6_deletion_compaction.1 ixW 0 (by decide)⟩,
   ⟨by decide, by decide, by decide,
    C6_deletion_compaction.2 usersT2 0 (some [("id", Value.int 1)]) (by decide)
      (by decide) (fun q hq => absurd hq (Nat.not_lt_zero q)) (by decide)⟩⟩

/-! ## Invariant transfer lemmas -/

theorem indexGood_congr {rows rows' : List Row} {c : String} {ix : Index}
    (hlen : rows'.length = rows.length)
    (hval : ∀ s, s < rows.length →
      rowVal (rows'.getD s []) c = rowVal (rows.getD s []) c)
    (hg : IndexGood rows c ix) : IndexGood rows' c ix := by
  obtain ⟨h1, h2, h3, h4⟩ := hg
  refine ⟨by rw [hlen]; exact h1, ?_, h3, ?_⟩
  · intro s hs
    rw [hlen] at hs
    rw [hval s hs]
    exact h2 s hs
  · intro e he
    obtain ⟨hb, hv⟩ := h4 e he
    exact ⟨by rw [hlen]; exact hb, by rw [hval e.2 hb]; exact hv⟩

theorem indexRemoved_congr {rows rows' : List Row} {idx : Nat} {c : String}
    {ix : Index}
    (hlen : rows'.length = rows.length)
    (hval : ∀ s, s < rows.length → s ≠ idx →
      rowVal (rows'.getD s []) c = rowVal (rows.getD s []) c)
    (hg : IndexRemoved rows idx c ix) : IndexRemoved rows' idx c ix := by
  obtain ⟨h1, h2, h3, h4⟩ := hg
  refine ⟨by rw [hlen]; exact h1, ?_, h3, ?_⟩
  · intro s hs hsi
    rw [hlen] at hs
    rw [hval s hs hsi]
    exact h2 s hs hsi
  · intro e he
    obtain ⟨hb, hni, hv⟩ := h4 e he
    exact ⟨by rw [hlen]; exact hb, hni, by rw [hval e.2 hb hni]; exact hv⟩

theorem index_remove_removed {rows : List Row} {c : String} {ix : Index}
    {idx : Nat} (hg : IndexGood rows c ix) (hidx : idx < rows.length) :
    IndexRemoved rows idx c (ix.remove (rowVal (rows.getD idx []) c) idx) := by
  obtain ⟨hlen, hlook, hnodup, hent⟩ := hg
  have hg' : IndexGood rows c ix := ⟨hlen, hlook, hnodup, hent⟩
  have hlp : lookupA ix._index (rowVal (rows.getD idx []) c) = some idx :=
    hlook idx hidx
  have hremf : (ix.remove (rowVal (rows.getD idx []) c) idx)._index =
      eraseA ix._index (rowVal (rows.getD idx []) c) := by
    show (if lookupA ix._index (rowVal (rows.getD idx []) c) = some idx
      then eraseA ix._index (rowVal (rows.getD idx []) c) else ix._index) = _
    rw [if_pos hlp]
  rw [IndexRemoved, hremf]
  have hern : ((eraseA ix._index (rowVal (rows.getD idx []) c)).map Prod.fst).Nodup :=
    hnodup.sublist ((eraseA_sublist _ _).map Prod.fst)
  refine ⟨?_, ?_, hern, ?_⟩
  · rw [length_eraseA_of_isSome (by rw [hlp]; rfl)]
    exact hlen
  · intro s hs hsi
    have hvne : rowVal (rows.getD s []) c ≠ rowVal (rows.getD idx []) c := by
      intro hh
      exact hsi (indexGood_val_inj hg' hs hidx hh)
    rw [lookupA_eraseA_ne _ _ _ hvne]
    exact hlook s hs
  · intro e he
    have hmem : e ∈ ix._index := (eraseA_sublist _ _).subset he
    obtain ⟨hb, hv⟩ := hent e hmem
    refine ⟨hb, ?_, hv⟩
    intro hei
    have he1 : e.1 = rowVal (rows.getD idx []) c := by rw [← hv, hei]
    have hnone : lookupA (eraseA ix._index (rowVal (rows.getD idx []) c))
        (rowVal (rows.getD idx []) c) = none := lookupA_eraseA_self hnodup
    rw [lookupA_eq_none_iff] at hnone
    exact hnone (List.mem_map.mpr ⟨e, he, he1⟩)

theorem index_removed_add {rows : List Row} {idx : Nat} {c : String}
    {ix : Index} {vv : Value}
    (hr : IndexRemoved rows idx c ix)
    (hidx : idx < rows.length)
    (hfresh : containsA ix._index vv = false) :
    ∀ (rows' : List Row) (ixn : Index),
      ixn._index = ix._index ++ [(vv, idx)] →
      rows'.length = rows.length →
      (∀ s, s < rows.length → s ≠ idx →
        rowVal (rows'.getD s []) c = rowVal (rows.getD s []) c) →
      rowVal (rows'.getD idx []) c = vv →
      IndexGood rows' c ixn := by
  intro rows' ixn hixn hlen hother hthis
  obtain ⟨h1, h2, h3, h4⟩ := hr
  have hnone : lookupA ix._index vv = none :=
    lookupA_eq_none_of_contains_false hfresh
  refine ⟨?_, ?_, ?_, ?_⟩
  · rw [hixn, hlen]
    simp only [List.length_append, List.length_cons, List.length_nil]
    omega
  · intro s hs
    rw [hlen] at hs
    by_cases hsi : s = idx
    · subst hsi
      rw [hthis, hixn, lookupA_append_of_none hnone]
      simp [lookupA]
    · rw [hother s hs hsi, hixn, lookupA_append_of_some (h2 s hs hsi)]
  · rw [hixn]
    simp only [List.map_append, List.map_cons, List.map_nil]
    rw [List.nodup_append]
    refine ⟨h3, List.nodup_singleton _, ?_⟩
    intro a ha hb
    simp only [List.mem_singleton] at hb
    subst hb
    exact (lookupA_eq_none_iff.mp hnone) ha
  · intro e he
    rw [hixn] at he
    rcases List.mem_append.mp he with he | he
    · obtain ⟨hb, hni, hv⟩ := h4 e he
      exact ⟨by omega, by rw [hother e.2 hb hni]; exact hv⟩
    · simp only [List.mem_singleton] at he
      subst he
      exact ⟨by omega, hthis⟩

theorem index_append_good {rows : List Row} {row : Row} {c : String} {ix : Index}
    (hg : IndexGood rows c ix)
    (hfresh : containsA ix._index (rowVal row c) = false) :
    ∀ (ixn : Index), ixn._index = ix._index ++ [(rowVal row c, rows.length)] →
      IndexGood (rows ++ [row]) c ixn := by
  intro ixn hixn
  obtain ⟨h1, h2, h3, h4⟩ := hg
  have hnone : lookupA ix._index (rowVal row c) = none :=
    lookupA_eq_none_of_contains_false hfresh
  refine ⟨?_, ?_, ?_, ?_⟩
  · rw [hixn]
    simp [h1]
  · intro s hs
    simp only [List.length_append, List.length_cons, List.length_nil] at hs
    by_cases hsn : s < rows.length
    · rw [List.getD_append _ _ _ _ hsn, hixn, lookupA_append_of_some (h2 s hsn)]
    · have hseq : s = rows.length := by omega
      subst hseq
      rw [getD_snoc_length, hixn, lookupA_append_of_none hnone]
      simp [lookupA]
  · rw [hixn]
    simp only [List.map_append, List.map_cons, List.map_nil]
    rw [List.nodup_append]
    refine ⟨h3, List.nodup_singleton _, ?_⟩
    intro a ha hb
    simp only [List.mem_singleton] at hb
    subst hb
    exact (lookupA_eq_none_iff.mp hnone) ha
  · intro e he
    rw [hixn] at he
    rcases List.mem_append.mp he with he | he
    · obtain ⟨hb, hv⟩ := h4 e he
      refine ⟨by simp; omega, ?_⟩
      rw [List.getD_append _ _ _ _ hb]
      exact hv
    · simp only [List.mem_singleton] at he
      subst he
      refine ⟨by simp, ?_⟩
      rw [getD_snoc_length]

/-! ## Creation and insertion preserve the invariant -/

theorem containsA_dinsert_mono {α β : Type} [DecidableEq α]
    {l : List (α × β)} {k : α} (k' : α) (v : β)
    (h : containsA l k = true) : containsA (dinsert l k' v) k = true := by
  unfold containsA at h ⊢
  by_cases hk : k = k'
  · subst hk
    rw [lookupA_dinsert_self]
    rfl
  · rw [lookupA_dinsert_ne _ _ _ _ hk]
    exact h

theorem containsA_dinsert_self {α β : Type} [DecidableEq α]
    (l : List (α × β)) (k : α) (v : β) : containsA (dinsert l k v) k = true := by
  unfold containsA
  rw [lookupA_dinsert_self]
  rfl

theorem containsA_map_keyed {α β : Type} {γ' : Type} [DecidableEq α]
    (f : α × β → γ') (l : List (α × β)) (k : α) :
    containsA (l.map (fun ci => (ci.1, f ci))) k = containsA l k := by
  unfold containsA
  rw [lookupA_map_keyed]
  cases lookupA l k <;> rfl

theorem create_fold_spec (cols : List Column) :
    ∀ (d : List (String × Index)),
      (d.map Prod.fst).Nodup →
      (∀ ci ∈ d, ci.2._index = []) →
      ((cols.foldl (fun d c =>
          if c.is_primary_key || c.is_unique then
            dinsert d c.name (Index.mk c.name [] []) else d) d).map Prod.fst).Nodup ∧
      (∀ ci ∈ cols.foldl (fun d c =>
          if c.is_primary_key || c.is_unique then
            dinsert d c.name (Index.mk c.name [] []) else d) d,
        ci.2._index = [] ∧
        (ci ∈ d ∨ ∃ col ∈ cols, col.name = ci.1 ∧
          (col.is_primary_key || col.is_unique) = true)) ∧
      (∀ k, containsA d k = true → containsA (cols.foldl (fun d c =>
          if c.is_primary_key || c.is_unique then
            dinsert d c.name (Index.mk c.name [] []) else d) d) k = true) ∧
      (∀ col ∈ cols, (col.is_primary_key || col.is_unique) = true →
        containsA (cols.foldl (fun d c =>
          if c.is_primary_key || c.is_unique then
            dinsert d c.name (Index.mk c.name [] []) else d) d) col.name = true) := by
  induction cols with
  | nil =>
    intro d hn hemp
    simp only [List.foldl_nil]
    exact ⟨hn, fun ci hci => ⟨hemp ci hci, Or.inl hci⟩, fun k hk => hk,
      fun col hcol => absurd hcol (List.not_mem_nil col)⟩
  | cons c rest ih =>
    intro d hn hemp
    simp only [List.foldl_cons]
    by_cases hpk : (c.is_primary_key || c.is_unique) = true
    · rw [if_pos hpk]
      have hn' : ((dinsert d c.name (Index.mk c.name [] [])).map Prod.fst).Nodup :=
        nodup_keys_dinsert _ hn
      have hemp' : ∀ ci ∈ dinsert d c.name (Index.mk c.name [] []),
          ci.2._index = [] := by
        intro ci hci
        cases mem_dinsert hci with
        | inl h1 => exact hemp ci h1
        | inr h1 => rw [h1]
      obtain ⟨g1, g2, g3, g4⟩ := ih (dinsert d c.name (Index.mk c.name [] [])) hn' hemp'
      refine ⟨g1, ?_, ?_, ?_⟩
      · intro ci hci
        obtain ⟨he, hor⟩ := g2 ci hci
        refine ⟨he, ?_⟩
        cases hor with
        | inl h1 =>
          cases mem_dinsert h1 with
          | inl h2 => exact Or.inl h2
          | inr h2 =>
            refine Or.inr ⟨c, List.mem_cons_self _ _, ?_, hpk⟩
            rw [h2]
        | inr h1 =>
          obtain ⟨col, hcol, hname, hind⟩ := h1
          exact Or.inr ⟨col, List.mem_cons_of_mem _ hcol, hname, hind⟩
      · intro k hk
        exact g3 k (containsA_dinsert_mono _ _ hk)
      · intro col hcol hind
        cases List.mem_cons.mp hcol with
        | inl h1 =>
          subst h1
          exact g3 col.name (containsA_dinsert_self d col.name _)
        | inr h1 => exact g4 col h1 hind
    · rw [if_neg hpk]
      obtain ⟨g1, g2, g3, g4⟩ := ih d hn hemp
      refine ⟨g1, ?_, g3, ?_⟩
      · intro ci hci
        obtain ⟨he, hor⟩ := g2 ci hci
        refine ⟨he, ?_⟩
        cases hor with
        | inl h1 => exact Or.inl h1
        | inr h1 =>
          obtain ⟨col, hcol, hname, hind⟩ := h1
          exact Or.inr ⟨col, List.mem_cons_of_mem _ hcol, hname, hind⟩
      · intro col hcol hind
        cases List.mem_cons.mp hcol with
        | inl h1 =>
          subst h1
          exact absurd hind hpk
        | inr h1 => exact g4 col h1 hind

theorem create_good (nm : String) (cols : List Column) (t : Table)
    (hn : (cols.map Column.name).Nodup)
    (hc : Table.create nm cols = .ok t) : TableGood t := by
  unfold Table.create at hc
  by_cases h1 : cols.isEmpty
  · rw [if_pos h1] at hc
    cases hc
  rw [if_neg h1] at hc
  by_cases h2 : 1 < (cols.filter (·.is_primary_key)).length
  · rw [if_pos h2] at hc
    cases hc
  rw [if_neg h2] at hc
  cases hc
  obtain ⟨g1, g2, g3, g4⟩ := create_fold_spec cols [] (by simp) (by simp)
  refine ⟨⟨hn, g1, ?_, ?_, ?_⟩, ?_⟩
  · intro ci hci
    obtain ⟨_, hor⟩ := g2 ci hci
    cases hor with
    | inl h3 => exact absurd h3 (List.not_mem_nil ci)
    | inr h3 => exact h3
  · intro col hcol hind
    exact g4 col hcol hind
  · intro r hr
    exact absurd hr (List.not_mem_nil r)
  · intro ci hci
    obtain ⟨he, _⟩ := g2 ci hci
    refine ⟨by rw [he]; rfl, ?_, by rw [he]; exact List.nodup_nil, ?_⟩
    · intro s hs
      exact absurd hs (Nat.not_lt_zero s)
    · intro e hme
      rw [he] at hme
      exact absurd hme (List.not_mem_nil e)

theorem insert_row_fresh (t : Table) (values : List Value) (row : Row)
    (hnames : (t.columns.map Column.name).Nodup)
    (hidx_nodup : (t.indexes.map Prod.fst).Nodup)
    (hidx_col : ∀ ci ∈ t.indexes, ∃ col ∈ t.columns,
      col.name = ci.1 ∧ (col.is_primary_key || col.is_unique) = true)
    (hlen : values.length = t.columns.length)
    (hbr : t.buildRow (t.columns.zip values) [] = .ok row) :
    ∀ ci ∈ t.indexes, containsA ci.2._index (rowVal row ci.1) = false := by
  have hzipnames : (t.columns.zip values).map (fun p => p.1.name) =
      t.columns.map Column.name := by
    have hfst : (t.columns.zip values).map Prod.fst = t.columns :=
      List.map_fst_zip _ _ (le_of_eq hlen.symm)
    calc (t.columns.zip values).map (fun p => p.1.name)
        = ((t.columns.zip values).map Prod.fst).map Column.name := by
          rw [List.map_map]; rfl
      _ = t.columns.map Column.name := by rw [hfst]
  obtain ⟨hkeys, hlook, hpairs⟩ := buildRow_spec t (t.columns.zip values) [] row hbr
    (by rw [hzipnames]; exact hnames) (by simp)
  intro ci hci
  obtain ⟨col, hcol_mem, hname, hind⟩ := hidx_col ci hci
  obtain ⟨v, hpv⟩ := mem_zip_left hlen.symm hcol_mem
  obtain ⟨vv, hv, hrow, hchk⟩ := hpairs (col, v) hpv
  have hlx : lookupA t.indexes ci.1 = some ci.2 :=
    lookupA_eq_some_of_mem_nodup hidx_nodup hci
  have hcf : ci.2.contains vv = false := by
    refine hchk hind ci.2 ?_
    rw [hname]
    exact hlx
  have hrv : rowVal row ci.1 = vv := by
    unfold rowVal
    rw [← hname, hrow]
    rfl
  rw [hrv]
  exact hcf

theorem insert_good (t : Table) (values : List Value)
    (hg : TableGood t) : TableGood (t.insert values).2 := by
  obtain ⟨⟨hw1, hw2, hw3, hw4, hw5⟩, hix⟩ := hg
  obtain ⟨herr, hok⟩ := insert_spec t values hw1 hw2 hw3
  cases hres : t.insert values with
  | mk r t' =>
    cases r with
    | error e =>
      have ht : t' = t := herr e t' hres
      subst ht
      exact ⟨⟨hw1, hw2, hw3, hw4, hw5⟩, hix⟩
    | ok u =>
      cases u
      obtain ⟨hlen, row, hbr, hname, hcols, hrows, hrkeys, hidxs⟩ := hok t' hres
      have hfresh := insert_row_fresh t values row hw1 hw2 hw3 hlen hbr
      show TableGood t'
      refine ⟨⟨?_, ?_, ?_, ?_, ?_⟩, ?_⟩
      · rw [hcols]
        exact hw1
      · rw [hidxs, map_fst_map_keyed]
        exact hw2
      · intro ci hci
        rw [hidxs] at hci
        obtain ⟨ci0, hci0, he⟩ := List.mem_map.mp hci
        subst he
        obtain ⟨col, hm, hn2, hu⟩ := hw3 ci0 hci0
        rw [hcols]
        exact ⟨col, hm, hn2, hu⟩
      · intro col hcol hind
        rw [hcols] at hcol
        rw [hidxs, containsA_map_keyed]
        exact hw4 col hcol hind
      · intro r hr
        rw [hrows] at hr
        rw [hcols]
        cases List.mem_append.mp hr with
        | inl h1 => exact hw5 r h1
        | inr h1 =>
          rw [List.mem_singleton.mp h1]
          exact hrkeys
      · intro ci hci
        rw [hidxs] at hci
        obtain ⟨ci0, hci0, he⟩ := List.mem_map.mp hci
        subst he
        rw [hrows]
        exact index_append_good (hix ci0 hci0) (hfresh ci0 hci0) _ rfl

/-! ## Deletion preserves the invariant -/

theorem select_sub (t : Table) (conds : Option (List (String × Value))) :
    ∀ r ∈ t.select conds, r ∈ t.rows := by
  intro r hr
  cases conds with
  | none => exact hr
  | some cs =>
    cases cs with
    | nil => exact hr
    | cons cv rest =>
      simp only [Table.select] at hr
      by_cases hre : rest.isEmpty
      · rw [if_pos hre] at hr
        cases hl : lookupA t.indexes cv.1 with
        | none =>
          simp only [hl] at hr
          exact (List.mem_filter.mp hr).1
        | some ixObj =>
          simp only [hl] at hr
          cases hget : ixObj.get cv.2 with
          | none =>
            simp only [hget] at hr
            exact absurd hr (List.not_mem_nil r)
          | some idx =>
            simp only [hget] at hr
            cases hrow : t.rows[idx]? with
            | none =>
              simp only [hrow] at hr
              exact absurd hr (List.not_mem_nil r)
            | some r0 =>
              simp only [hrow] at hr
              rw [List.mem_singleton.mp hr]
              exact List.mem_iff_getElem?.mpr ⟨idx, hrow⟩
      · rw [if_neg hre] at hr
        exact (List.mem_filter.mp hr).1

theorem select_nodup (t : Table) (conds : Option (List (String × Value)))
    (hrn : t.rows.Nodup) : (t.select conds).Nodup := by
  cases conds with
  | none => exact hrn
  | some cs =>
    cases cs with
    | nil => exact hrn
    | cons cv rest =>
      simp only [Table.select]
      by_cases hre : rest.isEmpty
      · rw [if_pos hre]
        cases hl : lookupA t.indexes cv.1 with
        | none => exact hrn.filter _
        | some ixObj =>
          cases hget : ixObj.get cv.2 with
          | none => simp [hget]
          | some idx =>
            cases hrow : t.rows[idx]? with
            | none => simp [hget, hrow]
            | some r0 => simp [hget, hrow]
      · rw [if_neg hre]
        exact hrn.filter _

theorem nodup_filterMap_inj_on {γ : Type} {f : γ → Option Nat} :
    ∀ {l : List γ}, l.Nodup →
      (∀ a ∈ l, ∀ b ∈ l, ∀ i, f a = some i → f b = some i → a = b) →
      (l.filterMap f).Nodup := by
  intro l
  induction l with
  | nil => intro _ _; simp
  | cons a tl ih =>
    intro hn hinj
    rw [List.filterMap_cons]
    have hn' := List.nodup_cons.mp hn
    have hinj' : ∀ x ∈ tl, ∀ y ∈ tl, ∀ i, f x = some i → f y = some i → x = y :=
      fun x hx y hy i h1 h2 => hinj x (List.mem_cons_of_mem _ hx) y
        (List.mem_cons_of_mem _ hy) i h1 h2
    cases hfa : f a with
    | none => exact ih hn'.2 hinj'
    | some i =>
      refine List.nodup_cons.mpr ⟨?_, ih hn'.2 hinj'⟩
      intro hmem
      obtain ⟨b, hb, hfb⟩ := List.mem_filterMap.mp hmem
      have hab : a = b := hinj a (List.mem_cons_self _ _) b
        (List.mem_cons_of_mem _ hb) i hfa hfb
      exact hn'.1 (hab ▸ hb)

theorem findSlots_spec (t : Table) (targets : List Row) (hg : TableGood t)
    (hsub : ∀ r ∈ targets, r ∈ t.rows) (hnd : targets.Nodup) :
    (t.findSlots targets).Nodup ∧ ∀ i ∈ t.findSlots targets, i < t.rows.length := by
  obtain ⟨⟨h1, _, _, _, h5⟩, _⟩ := hg
  have hresolve : ∀ r ∈ targets, ∀ i,
      t.rows.findIdx? (fun q => contentMatch q r) = some i →
      t.rows.getD i [] = r := by
    intro r hr i hf
    obtain ⟨hi, hcm, _⟩ := findIdx?_some_spec _ [] t.rows i hf
    have hkeys : (t.rows.getD i []).map Prod.fst = r.map Prod.fst := by
      rw [h5 _ (getD_mem _ i _ hi), h5 r (hsub r hr)]
    exact (contentMatch_iff hkeys
      (by rw [h5 _ (getD_mem _ i _ hi)]; exact h1)).mp hcm
  constructor
  · unfold Table.findSlots
    refine nodup_filterMap_inj_on hnd ?_
    intro a ha b hb i hfa hfb
    rw [← hresolve a ha i hfa, ← hresolve b hb i hfb]
  · intro i hi
    unfold Table.findSlots at hi
    obtain ⟨r, hr, hf⟩ := List.mem_filterMap.mp hi
    exact (findIdx?_some_spec _ ([] : Row) t.rows i hf).1

theorem foldl_deleteSlot_good :
    ∀ (l : List Nat) (t : Table), TableGood t → l.Pairwise (· > ·) →
      (∀ i ∈ l, i < t.rows.length) → TableGood (l.foldl deleteSlot t) := by
  intro l
  induction l with
  | nil => intro t hg _ _; exact hg
  | cons i rest ih =>
    intro t hg hp hb
    rw [List.foldl_cons]
    have hi : i < t.rows.length := hb i (List.mem_cons_self _ _)
    have hg1 : TableGood (deleteSlot t i) := (deleteSlot_spec t i hg hi).1
    rw [List.pairwise_cons] at hp
    refine ih (deleteSlot t i) hg1 hp.2 ?_
    intro j hj
    rw [deleteSlot_rows, List.length_eraseIdx_of_lt hi]
    have := hp.1 j hj
    omega

theorem foldl_deleteSlot_noidx :
    ∀ (l : List Nat) (t : Table), TableWF t → t.indexes = [] →
      TableWF (l.foldl deleteSlot t) ∧ (l.foldl deleteSlot t).indexes = [] := by
  intro l
  induction l with
  | nil => intro t hw he; exact ⟨hw, he⟩
  | cons i rest ih =>
    intro t hw he
    rw [List.foldl_cons]
    obtain ⟨h1, h2, h3, h4, h5⟩ := hw
    have hie : (deleteSlot t i).indexes = [] := by
      rw [deleteSlot_indexes, he]
      rfl
    refine ih (deleteSlot t i) ⟨?_, ?_, ?_, ?_, ?_⟩ hie
    · rw [deleteSlot_columns]
      exact h1
    · rw [hie]
      exact List.nodup_nil
    · intro ci hci
      rw [hie] at hci
      exact absurd hci (List.not_mem_nil ci)
    · intro col hcol hcu
      rw [deleteSlot_columns] at hcol
      have hc := h4 col hcol hcu
      rw [he] at hc
      simp [containsA, lookupA] at hc
    · intro r hr
      rw [deleteSlot_rows] at hr
      rw [deleteSlot_columns]
      exact h5 r ((List.eraseIdx_sublist _ _).subset hr)

theorem delete_good (t : Table) (conds : Option (List (String × Value)))
    (hg : TableGood t) : TableGood (t.delete conds).2 := by
  show TableGood ((sortDesc (t.findSlots (t.select conds))).foldl deleteSlot t)
  cases hidx : t.indexes with
  | nil =>
    obtain ⟨hw, _⟩ := hg
    obtain ⟨hw', hie⟩ :=
      foldl_deleteSlot_noidx (sortDesc (t.findSlots (t.select conds))) t hw hidx
    refine ⟨hw', ?_⟩
    intro ci hci
    rw [hie] at hci
    exact absurd hci (List.not_mem_nil ci)
  | cons ci0 restIx =>
    have hg0 : IndexGood t.rows ci0.1 ci0.2 :=
      hg.2 ci0 (by rw [hidx]; exact List.mem_cons_self _ _)
    have hrn : t.rows.Nodup := indexGood_rows_nodup hg0
    obtain ⟨hfnd, hfb⟩ := findSlots_spec t (t.select conds) hg
      (select_sub t conds) (select_nodup t conds hrn)
    have hperm := sortDesc_perm (t.findSlots (t.select conds))
    refine foldl_deleteSlot_good _ t hg (sortDesc_strict hfnd) ?_
    intro i hi
    exact hfb i (hperm.subset hi)

/-! ## Update preserves the invariant when it does not raise mid-apply -/

theorem mem_foldl_dinsert_name :
    ∀ (cols : List Column) (d : List (String × Column)) (x : String × Column),
      x ∈ cols.foldl (fun acc c => dinsert acc c.name c) d →
      x ∈ d ∨ ∃ col ∈ cols, x = (col.name, col) := by
  intro cols
  induction cols with
  | nil =>
    intro d x h
    exact Or.inl h
  | cons c0 cs ih =>
    intro d x h
    rw [List.foldl_cons] at h
    cases ih (dinsert d c0.name c0) x h with
    | inl h1 =>
      cases mem_dinsert h1 with
      | inl h2 => exact Or.inl h2
      | inr h2 => exact Or.inr ⟨c0, List.mem_cons_self _ _, h2⟩
    | inr h1 =>
      obtain ⟨col, hcol, he⟩ := h1
      exact Or.inr ⟨col, List.mem_cons_of_mem _ hcol, he⟩

theorem column_dict_mem (t : Table) (c : String) (col : Column)
    (h : lookupA t.column_dict c = some col) : col ∈ t.columns ∧ col.name = c := by
  have hmem : (c, col) ∈ t.column_dict := mem_of_lookupA_eq_some h
  cases mem_foldl_dinsert_name t.columns [] (c, col) hmem with
  | inl h1 => exact absurd h1 (List.not_mem_nil _)
  | inr h1 =>
    obtain ⟨col', hcol', he⟩ := h1
    injection he with he1 he2
    subst he2
    exact ⟨hcol', he1.symm⟩

theorem midGood_nil_good {t : Table} {idx : Nat} (hw : TableWF t)
    (hm : MidGood t idx []) : TableGood t := by
  refine ⟨hw, ?_⟩
  intro ci hci
  have hl : lookupA t.indexes ci.1 = some ci.2 :=
    lookupA_eq_some_of_mem_nodup hw.2.1 hci
  have hx := hm ci.1 ci.2 hl
  rw [if_neg (List.not_mem_nil ci.1)] at hx
  exact hx

theorem findSlots_bounds (t : Table) (targets : List Row) :
    ∀ i ∈ t.findSlots targets, i < t.rows.length := by
  intro i hi
  unfold Table.findSlots at hi
  obtain ⟨r, hr, hf⟩ := List.mem_filterMap.mp hi
  exact (findIdx?_some_spec _ ([] : Row) t.rows i hf).1

theorem removeOlds_char (idx : Nat) :
    ∀ (ups : List (String × Value)) (t : Table), (ups.map Prod.fst).Nodup →
      (removeOlds t idx ups).rows = t.rows ∧
      (removeOlds t idx ups).columns = t.columns ∧
      (removeOlds t idx ups).name = t.name ∧
      (removeOlds t idx ups).indexes.map Prod.fst = t.indexes.map Prod.fst ∧
      ∀ c, lookupA (removeOlds t idx ups).indexes c =
        (lookupA t.indexes c).map (fun ixo =>
          if c ∈ ups.map Prod.fst then
            ixo.remove (rowVal (t.rows.getD idx []) c) idx else ixo) := by
  intro ups
  induction ups with
  | nil =>
    intro t _
    refine ⟨rfl, rfl, rfl, rfl, ?_⟩
    intro c
    cases hlc : lookupA t.indexes c <;> simp [removeOlds, hlc]
  | cons cv rest ih =>
    intro t hn
    obtain ⟨c0, v0⟩ := cv
    simp only [List.map_cons, List.nodup_cons] at hn
    cases hl : lookupA t.indexes c0 with
    | none =>
      have hfold : removeOlds t idx ((c0, v0) :: rest) = removeOlds t idx rest := by
        unfold removeOlds
        rw [List.foldl_cons]
        simp only [hl]
      rw [hfold]
      obtain ⟨h1, h2, h3, h4, h5⟩ := ih t hn.2
      refine ⟨h1, h2, h3, h4, ?_⟩
      intro c
      rw [h5 c]
      by_cases hc : c = c0
      · subst hc
        rw [hl]
        rfl
      · cases hlc : lookupA t.indexes c with
        | none => rfl
        | some ixo =>
          simp only [Option.map_some', List.map_cons, List.mem_cons]
          by_cases hm : c ∈ rest.map Prod.fst
          · rw [if_pos hm, if_pos (Or.inr hm)]
          · rw [if_neg hm, if_neg (not_or.mpr ⟨hc, hm⟩)]
    | some ixObj =>
      have hfold : removeOlds t idx ((c0, v0) :: rest) =
          removeOlds { t with indexes := (dinsert t.indexes c0
            (ixObj.remove (rowVal (t.rows.getD idx []) c0) idx)) } idx rest := by
        unfold removeOlds
        rw [List.foldl_cons]
        simp only [hl]
        rfl
      rw [hfold]
      obtain ⟨h1, h2, h3, h4, h5⟩ := ih { t with indexes := (dinsert t.indexes c0
          (ixObj.remove (rowVal (t.rows.getD idx []) c0) idx)) } hn.2
      refine ⟨h1, h2, h3, ?_, ?_⟩
      · rw [h4]
        show (dinsert t.indexes c0 _).map Prod.fst = _
        exact map_fst_dinsert_of_isSome _ (by rw [hl]; rfl)
      · intro c
        rw [h5 c]
        by_cases hc : c = c0
        · subst hc
          have hL : lookupA ({ t with indexes := (dinsert t.indexes c
              (ixObj.remove (rowVal (t.rows.getD idx []) c) idx)) } : Table).indexes c =
              some (ixObj.remove (rowVal (t.rows.getD idx []) c) idx) :=
            lookupA_dinsert_self _ _ _
          rw [hL, hl]
          simp only [Option.map_some', List.map_cons, List.mem_cons]
          rw [if_neg hn.1]
          simp
        · have hL : lookupA ({ t with indexes := (dinsert t.indexes c0
              (ixObj.remove (rowVal (t.rows.getD idx []) c0) idx)) } : Table).indexes c =
              lookupA t.indexes c := lookupA_dinsert_ne _ _ _ _ hc
          rw [hL]
          cases hlc : lookupA t.indexes c with
          | none => rfl
          | some ixo =>
            simp only [Option.map_some', List.map_cons, List.mem_cons]
            have hrows1 : ({ t with indexes := (dinsert t.indexes c0
                (ixObj.remove (rowVal (t.rows.getD idx []) c0) idx)) } : Table).rows =
                t.rows := rfl
            rw [hrows1]
            by_cases hm : c ∈ rest.map Prod.fst
            · rw [if_pos hm, if_pos (Or.inr hm)]
            · rw [if_neg hm, if_neg (not_or.mpr ⟨hc, hm⟩)]

theorem tableWF_set_row {t : Table} {idx : Nat} {c : String} {vv : Value}
    (hw : TableWF t) (hidx : idx < t.rows.length)
    (hc : c ∈ t.columns.map Column.name) :
    TableWF { t with rows := t.rows.set idx (dinsert (t.rows.getD idx []) c vv) } := by
  obtain ⟨h1, h2, h3, h4, h5⟩ := hw
  refine ⟨h1, h2, h3, h4, ?_⟩
  intro r hr
  show r.map Prod.fst = t.columns.map Column.name
  have hr' : r ∈ t.rows.set idx (dinsert (t.rows.getD idx []) c vv) := hr
  cases List.mem_or_eq_of_mem_set hr' with
  | inl h => exact h5 r h
  | inr h =>
    subst h
    have hrow : (t.rows.getD idx []).map Prod.fst = t.columns.map Column.name :=
      h5 _ (getD_mem _ idx _ hidx)
    have hsome : (lookupA (t.rows.getD idx []) c).isSome = true := by
      rw [lookupA_isSome_iff, hrow]
      exact hc
    rw [map_fst_dinsert_of_isSome vv hsome, hrow]

theorem midGood_set_row {t : Table} {idx : Nat} {c : String} {vv : Value}
    {pend : List String}
    (hidx : idx < t.rows.length) (hm : MidGood t idx pend) (hcp : c ∈ pend) :
    MidGood { t with rows := t.rows.set idx (dinsert (t.rows.getD idx []) c vv) }
      idx pend := by
  intro c' ixo hl
  have hl' : lookupA t.indexes c' = some ixo := hl
  have hx := hm c' ixo hl'
  have hlen : (t.rows.set idx (dinsert (t.rows.getD idx []) c vv)).length =
      t.rows.length := by simp
  by_cases hp : c' ∈ pend
  · rw [if_pos hp] at hx ⊢
    show IndexRemoved (t.rows.set idx (dinsert (t.rows.getD idx []) c vv)) idx c' ixo
    refine indexRemoved_congr hlen ?_ hx
    intro s hs hsi
    rw [getD_set_ne _ _ _ _ _ (fun he => hsi he.symm)]
  · rw [if_neg hp] at hx ⊢
    have hcc : c' ≠ c := fun he => hp (he ▸ hcp)
    show IndexGood (t.rows.set idx (dinsert (t.rows.getD idx []) c vv)) c' ixo
    refine indexGood_congr hlen ?_ hx
    intro s hs
    by_cases hsi : s = idx
    · subst hsi
      rw [getD_set_self _ _ _ _ hs]
      unfold rowVal
      rw [lookupA_dinsert_ne _ _ _ _ hcc]
    · rw [getD_set_ne _ _ _ _ _ (fun he => hsi he.symm)]

theorem midGood_drop_head {t : Table} {idx : Nat} {c : String} {pend : List String}
    (hm : MidGood t idx (c :: pend)) (hnc : lookupA t.indexes c = none)
    (hcp : c ∉ pend) :
    MidGood t idx pend := by
  intro c' ixo hl
  have hx := hm c' ixo hl
  by_cases hp : c' ∈ pend
  · rw [if_pos (List.mem_cons_of_mem _ hp)] at hx
    rw [if_pos hp]
    exact hx
  · have hcc : c' ≠ c := by
      intro he
      subst he
      rw [hnc] at hl
      cases hl
    rw [if_neg (by simp [List.mem_cons, hcc, hp])] at hx
    rw [if_neg hp]
    exact hx

theorem midGood_add_head {t : Table} {idx : Nat} {c : String} {vv : Value}
    {ixObj ix' : Index} {pend : List String}
    (hm : MidGood t idx (c :: pend))
    (hl : lookupA t.indexes c = some ixObj)
    (hcf : containsA ixObj._index vv = false)
    (hix : ix'._index = ixObj._index ++ [(vv, idx)])
    (hidx : idx < t.rows.length)
    (hcp : c ∉ pend)
    (hvv : rowVal (t.rows.getD idx []) c = vv) :
    MidGood { t with indexes := (dinsert t.indexes c ix') } idx pend := by
  intro c' ixo hlk
  by_cases hcc : c' = c
  · subst hcc
    have hlk' : lookupA (dinsert t.indexes c' ix') c' = some ixo := hlk
    rw [lookupA_dinsert_self] at hlk'
    injection hlk' with hixo
    subst hixo
    rw [if_neg hcp]
    show IndexGood t.rows c' ix'
    have hx := hm c' ixObj hl
    rw [if_pos (List.mem_cons_self _ _)] at hx
    exact index_removed_add hx hidx hcf t.rows ix' hix rfl (fun s _ _ => rfl) hvv
  · have hlk' : lookupA t.indexes c' = some ixo := by
      have h0 : lookupA (dinsert t.indexes c ix') c' = some ixo := hlk
      rw [lookupA_dinsert_ne _ _ _ _ hcc] at h0
      exact h0
    have hx := hm c' ixo hlk'
    by_cases hp : c' ∈ pend
    · rw [if_pos (List.mem_cons_of_mem _ hp)] at hx
      rw [if_pos hp]
      exact hx
    · rw [if_neg (by simp [List.mem_cons, hcc, hp])] at hx
      rw [if_neg hp]
      exact hx

theorem tableWF_add_index {t : Table} {c : String} {ixObj ix' : Index}
    (hw : TableWF t) (hl : lookupA t.indexes c = some ixObj) :
    TableWF { t with indexes := (dinsert t.indexes c ix') } := by
  obtain ⟨h1, h2, h3, h4, h5⟩ := hw
  refine ⟨h1, ?_, ?_, ?_, h5⟩
  · show ((dinsert t.indexes c ix').map Prod.fst).Nodup
    rw [map_fst_dinsert_of_isSome _ (by rw [hl]; rfl)]
    exact h2
  · intro ci hci
    have hci' : ci ∈ dinsert t.indexes c ix' := hci
    cases mem_dinsert hci' with
    | inl h => exact h3 ci h
    | inr h =>
      obtain ⟨col, hcm, hcn, hcu⟩ := h3 (c, ixObj) (mem_of_lookupA_eq_some hl)
      subst h
      exact ⟨col, hcm, hcn, hcu⟩
  · intro col hcm hcu
    show containsA (dinsert t.indexes c ix') col.name = true
    exact containsA_dinsert_mono _ _ (h4 col hcm hcu)

theorem applyOne_good :
    ∀ (ups : List (String × Value)) (t t2 : Table) (idx : Nat),
      applyOne t idx ups = (Except.ok (), t2) →
      (ups.map Prod.fst).Nodup →
      TableWF t → idx < t.rows.length →
      MidGood t idx (ups.map Prod.fst) →
      TableWF t2 ∧ MidGood t2 idx [] ∧ t2.rows.length = t.rows.length := by
  intro ups
  induction ups with
  | nil =>
    intro t t2 idx h _ hw _ hm
    have ht : t = t2 := congrArg Prod.snd h
    subst ht
    exact ⟨hw, hm, rfl⟩
  | cons cv rest ih =>
    intro t t2 idx h hn hw hidx hm
    obtain ⟨c, nv⟩ := cv
    simp only [List.map_cons, List.nodup_cons] at hn
    unfold applyOne at h
    cases hcd : lookupA t.column_dict c with
    | none =>
      simp only [hcd] at h
      injection h with h1 h2
      exact Except.noConfusion h1
    | some col =>
      simp only [hcd] at h
      cases hv : col.validate_value nv with
      | error e =>
        simp only [hv] at h
        injection h with h1 h2
        exact Except.noConfusion h1
      | ok vv =>
        simp only [hv] at h
        have hcname : c ∈ t.columns.map Column.name := by
          obtain ⟨hcm, hcn⟩ := column_dict_mem t c col hcd
          exact List.mem_map.mpr ⟨col, hcm, hcn⟩
        have hw1 : TableWF { t with rows := (t.rows.set idx
            (dinsert (t.rows.getD idx []) c vv)) } := tableWF_set_row hw hidx hcname
        have hm1 : MidGood { t with rows := (t.rows.set idx
            (dinsert (t.rows.getD idx []) c vv)) } idx (c :: rest.map Prod.fst) :=
          midGood_set_row hidx hm (List.mem_cons_self _ _)
        have hidx1 : idx < ({ t with rows := (t.rows.set idx
            (dinsert (t.rows.getD idx []) c vv)) } : Table).rows.length := by
          simpa using hidx
        cases hlx : lookupA t.indexes c with
        | none =>
          simp only [hlx] at h
          have hm1' : MidGood { t with rows := (t.rows.set idx
              (dinsert (t.rows.getD idx []) c vv)) } idx (rest.map Prod.fst) :=
            midGood_drop_head hm1 hlx hn.1
          obtain ⟨hwr, hmr, hlr⟩ := ih _ t2 idx h hn.2 hw1 hidx1 hm1'
          refine ⟨hwr, hmr, ?_⟩
          rw [hlr]
          simp
        | some ixObj =>
          simp only [hlx] at h
          cases hadd : ixObj.add vv idx with
          | error e =>
            simp only [hadd] at h
            injection h with h1 h2
            exact Except.noConfusion h1
          | ok ix' =>
            simp only [hadd] at h
            unfold Index.add at hadd
            by_cases hct : containsA ixObj._index vv = true
            · rw [if_pos hct] at hadd
              cases hadd
            · rw [if_neg hct] at hadd
              injection hadd with hixd
              have hcf : containsA ixObj._index vv = false := Bool.of_not_eq_true hct
              have hixe : ix'._index = ixObj._index ++ [(vv, idx)] := by
                rw [← hixd]
                show dinsert ixObj._index vv idx = _
                exact dinsert_eq_append _ (lookupA_eq_none_of_contains_false hcf)
              have hvv : rowVal ((t.rows.set idx
                  (dinsert (t.rows.getD idx []) c vv)).getD idx []) c = vv := by
                rw [getD_set_self _ _ _ _ hidx]
                unfold rowVal
                rw [lookupA_dinsert_self]
                rfl
              have hw2 : TableWF { { t with rows := (t.rows.set idx
                  (dinsert (t.rows.getD idx []) c vv)) } with
                  indexes := (dinsert t.indexes c ix') } :=
                tableWF_add_index hw1 hlx
              have hm2 : MidGood { { t with rows := (t.rows.set idx
                  (dinsert (t.rows.getD idx []) c vv)) } with
                  indexes := (dinsert t.indexes c ix') } idx (rest.map Prod.fst) :=
                midGood_add_head hm1 hlx hcf hixe hidx1 hn.1 hvv
              obtain ⟨hwr, hmr, hlr⟩ := ih _ t2 idx h hn.2 hw2 hidx1 hm2
              refine ⟨hwr, hmr, ?_⟩
              rw [hlr]
              simp

theorem applyAll_good :
    ∀ (inds : List Nat) (t t3 : Table) (n : Nat) (ups : List (String × Value)),
      applyAll t ups inds = (Except.ok n, t3) →
      (ups.map Prod.fst).Nodup →
      TableGood t →
      (∀ i ∈ inds, i < t.rows.length) →
      TableGood t3 := by
  intro inds
  induction inds with
  | nil =>
    intro t t3 n ups h _ hg _
    have ht : t = t3 := congrArg Prod.snd h
    subst ht
    exact hg
  | cons idx rest ih =>
    intro t t3 n ups h hn hg hb
    have hidx : idx < t.rows.length := hb idx (List.mem_cons_self _ _)
    obtain ⟨hr1, hr2, hr3, hr4, hr5⟩ := removeOlds_char idx ups t hn
    obtain ⟨⟨w1, w2, w3, w4, w5⟩, hix⟩ := hg
    have hw1 : TableWF (removeOlds t idx ups) := by
      refine ⟨?_, ?_, ?_, ?_, ?_⟩
      · rw [hr2]
        exact w1
      · rw [hr4]
        exact w2
      · intro ci hci
        have hkey : ci.1 ∈ t.indexes.map Prod.fst := by
          rw [← hr4]
          exact List.mem_map.mpr ⟨ci, hci, rfl⟩
        obtain ⟨ixo, hixo⟩ := entry_of_mem_keys hkey
        obtain ⟨col, hcm, hcn, hcu⟩ := w3 (ci.1, ixo) hixo
        rw [hr2]
        exact ⟨col, hcm, hcn, hcu⟩
      · intro col hcm hcu
        rw [hr2] at hcm
        have hc := w4 col hcm hcu
        unfold containsA at hc ⊢
        rw [hr5]
        cases hl : lookupA t.indexes col.name with
        | none =>
          rw [hl] at hc
          cases hc
        | some ixo => rfl
      · intro r hr
        rw [hr1] at hr
        rw [hr2]
        exact w5 r hr
    have hm1 : MidGood (removeOlds t idx ups) idx (ups.map Prod.fst) := by
      intro c ixo hl
      rw [hr5 c] at hl
      cases hlt : lookupA t.indexes c with
      | none =>
        rw [hlt] at hl
        cases hl
      | some ixt =>
        rw [hlt, Option.map_some'] at hl
        injection hl with hl2
        have hgt : IndexGood t.rows c ixt := hix (c, ixt) (mem_of_lookupA_eq_some hlt)
        by_cases hp : c ∈ ups.map Prod.fst
        · rw [if_pos hp] at hl2
          rw [if_pos hp, hr1, ← hl2]
          exact index_remove_removed hgt hidx
        · rw [if_neg hp] at hl2
          rw [if_neg hp, hr1, ← hl2]
          exact hgt
    unfold applyAll at h
    cases h1 : applyOne (removeOlds t idx ups) idx ups with
    | mk r t2 =>
      cases r with
      | error e =>
        simp only [h1] at h
        injection h with hh
        exact Except.noConfusion hh
      | ok u =>
        cases u
        simp only [h1] at h
        have hidx1 : idx < (removeOlds t idx ups).rows.length := by
          rw [hr1]
          exact hidx
        obtain ⟨hwr, hmr, hlr⟩ := applyOne_good ups _ t2 idx h1 hn hw1 hidx1 hm1
        have hg2 : TableGood t2 := midGood_nil_good hwr hmr
        cases h2 : applyAll t2 ups rest with
        | mk r3 t3' =>
          cases r3 with
          | error e =>
            simp only [h2] at h
            injection h with hh
            exact Except.noConfusion hh
          | ok n' =>
            simp only [h2] at h
            injection h with hh1 hh2
            subst hh2
            refine ih t2 t3' n' ups h2 hn hg2 ?_
            intro i hi
            rw [hlr, hr1]
            exact hb i (List.mem_cons_of_mem _ hi)

theorem update_good (t : Table) (ups : List (String × Value))
    (conds : Option (List (String × Value)))
    (hg : TableGood t) (hnodup : (ups.map Prod.fst).Nodup)
    (hside : (∃ n, (t.update ups conds).1 = Except.ok n) ∨
      (t.update ups conds).2 = t) :
    TableGood (t.update ups conds).2 := by
  cases hvp : validatePass t ups (t.findSlots (t.select conds)) with
  | error e =>
    have hres : t.update ups conds = (.error e, t) := by
      unfold Table.update
      simp only [hvp]
    rw [hres]
    exact hg
  | ok u =>
    cases u
    have hres : t.update ups conds = applyAll t ups (t.findSlots (t.select conds)) := by
      unfold Table.update
      simp only [hvp]
    rw [hres]
    cases happ : applyAll t ups (t.findSlots (t.select conds)) with
    | mk r t3 =>
      cases r with
      | ok n =>
        exact applyAll_good _ t t3 n ups happ hnodup hg
          (findSlots_bounds t (t.select conds))
      | error e =>
        cases hside with
        | inl hx =>
          obtain ⟨n, hx⟩ := hx
          rw [hres, happ] at hx
          exact Except.noConfusion hx
        | inr hx =>
          rw [hres, happ] at hx
          show TableGood t3
          have hx' : t3 = t := hx
          rw [hx']
          exact hg

theorem reach_good (t : Table) (h : ReachGood t) : TableGood t := by
  induction h with
  | init nm cols t0 hn hc => exact create_good nm cols t0 hn hc
  | insert t0 values hrec ih => exact insert_good t0 values ih
  | dele t0 conds hrec ih => exact delete_good t0 conds ih
  | update t0 ups conds hrec hn hside ih => exact update_good t0 ups conds ih hn hside

/-! ## Claim C3 -/

/-- C3: in every state reachable from table creation with distinct column
names by any sequence of inserts, deletes, and updates that either succeed or
leave the table unchanged when they raise, every index satisfies the spec's
invariant: exactly one entry per row, each mapping that row's current value
for the indexed column to the row's current slot, with no duplicate keys.
(The original claim, which also admits operations that fail mid-apply, is
refuted by `C3_counterexample`.) -/
theorem C3_index_invariant (t : Table) (h : ReachGood t) :
    ∀ ci ∈ t.indexes, IndexGood t.rows ci.1 ci.2 :=
  (reach_good t h).2

/-- C3 counterexample: assigning the same new primary-key value to both rows
of the two-row users table raises ConstraintViolation during the apply pass,
and the resulting (reachable) table state violates the index invariant, so
the invariant does not survive every failing operation. -/
theorem C3_counterexample :
    (usersT2.update [("id", Value.int 5)] none).1 =
      Except.error DBErr.constraintViolation ∧
    ¬ ∀ ci ∈ ((usersT2.update [("id", Value.int 5)] none).2).indexes,
        IndexGood ((usersT2.update [("id", Value.int 5)] none).2).rows ci.1 ci.2 := by
  constructor
  · decide
  · decide

/-- C3 witness: the two-row users table reached by create and two inserts
satisfies the invariant for its primary-key index. -/
theorem C3_witness :
    IndexGood usersT2.rows "id" ixW :=
  C3_index_invariant usersT2
    (ReachGood.insert usersT1 [.int 2, .text "b", .text "B"]
      (ReachGood.insert usersT0 [.int 1, .text "a", .text "A"]
        (ReachGood.init "users"
          [Column.make "id" .INT true false,
           Column.make "email" .TEXT false true,
           Column.make "name" .TEXT false false] usersT0 (by decide) (by decide))))
    ("id", ixW) (by decide)

end MiniRDBMS
